import Mathlib

/-!
# Limit-surface evaluation kernels (`osd/cpuEvalLimitKernel.cpp`)

A shallow embedding of the CPU limit evaluation kernels of OpenSubdiv:
`evalCubicBSpline`, `evalBSpline`, `univar4x4`, `csf` and `evalGregory`.

Modelling conventions.

* `float` is replaced by an arbitrary field `K` (exact arithmetic); the
  definitions are computable at `K = ℚ` and are used at `K = ℝ` when a
  statement speaks about derivatives.
* A `float *` buffer is a total map `Nat → K` from element index to value.
  Distinct pointer arguments are distinct, non-overlapping buffers.
* `int` / `unsigned int` quantities that are used as sizes or indices are
  natural numbers; address computations are assumed not to wrap at 32 bits.
* A call that aborts on its `assert`, that writes through a null
  derivative pointer, or that stores past the end of the stack array `r` of
  `evalGregory`, yields `none`.
-/

namespace OpenSubdiv

/-! ## Data model -/

/-- Modelled from the spec: the declaration of `OsdVertexBufferDescriptor`
lives in a header that is not part of the sources at hand.  It is the triple
`{offset, length, stride}` describing an interleaved buffer of scalars. -/
structure OsdVertexBufferDescriptor where
  offset : Nat
  length : Nat
  stride : Nat
deriving DecidableEq

/-- Four blend weights `B[0..3]` together with the four derivative weights
that the basis evaluators store when their last pointer argument is non-null. -/
structure BasisWeights (K : Type) where
  B : Fin 4 → K
  D : Fin 4 → K

section Kernels

variable {K : Type} [Field K]

/-! ## Scalar basis evaluators -/

/-- Embeds `evalCubicBSpline(float u, float B[4], float BU[4])`, lines 71-92.
The field `D` holds what the source writes to `BU` when `BU` is non-null. -/
def evalCubicBSpline (u : K) : BasisWeights K :=
  let t := u
  let s := 1 - u
  let C0 := s * (1 / 2 * s)
  let C1 := t * (s + 1 / 2 * t) + s * (1 / 2 * s + t)
  let C2 := t * (1 / 2 * t)
  { B := ![1 / 3 * s * C0,
           (2 / 3 * s + t) * C0 + (2 / 3 * s + 1 / 3 * t) * C1,
           (1 / 3 * s + 2 / 3 * t) * C1 + (s + 2 / 3 * t) * C2,
           1 / 3 * t * C2]
    D := ![-C0, C0 - C1, C1 - C2, C2] }

/-- Embeds `univar4x4(float u, float B[4], float D[4])`, lines 161-182. -/
def univar4x4 (u : K) : BasisWeights K :=
  let t := u
  let s := 1 - u
  let A0 := s * s
  let A1 := 2 * s * t
  let A2 := t * t
  { B := ![s * A0, t * A0 + s * A1, t * A1 + s * A2, t * A2]
    D := ![-A0, A0 - A1, A1 - A2, A2] }

/-! ## Buffers -/

/-- The store `a[i] = x` on a buffer. -/
def setAt (a : Nat → K) (i : Nat) (x : K) : Nat → K :=
  fun n => if n = i then x else a n

/-- The call `memset(a + base, 0, n * sizeof(float))`. -/
def memsetZero (a : Nat → K) (base n : Nat) : Nat → K :=
  fun m => if base ≤ m ∧ m < base + n then 0 else a m

/-- The call `memcpy(dst + dbase, src + sbase, n * sizeof(float))` between
two distinct buffers. -/
def memcpyFrom (dst : Nat → K) (dbase : Nat) (src : Nat → K) (sbase n : Nat) : Nat → K :=
  fun m => if dbase ≤ m ∧ m < dbase + n then src (sbase + (m - dbase)) else dst m

/-- The checked precondition `inDesc.length <= (outDesc.stride-outDesc.offset)`
of both evaluators, a comparison of C `int`s. -/
def capacityOK (inDesc outDesc : OsdVertexBufferDescriptor) : Prop :=
  (inDesc.length : Int) ≤ (outDesc.stride : Int) - (outDesc.offset : Int)

instance (inDesc outDesc : OsdVertexBufferDescriptor) : Decidable (capacityOK inDesc outDesc) := by
  unfold capacityOK; infer_instance

/-- The three output buffers after a call; a derivative buffer is `none` when
its pointer argument was null. -/
structure EvalResult (K : Type) where
  Q : Nat → K
  dQU : Option (Nat → K)
  dQV : Option (Nat → K)

/-! ## Regular patch evaluation -/

/-- The first accumulation pass, lines 121-134 of `evalBSpline` and, with the
same loop text, lines 385-399 of `evalGregory` (whose extra statement
`in += inDesc.stride` changes a pointer that is reassigned before its next
use).  The state is the pair of scratch arrays `(BU, DU)`. -/
def accumulateU (W : BasisWeights K) (evalDeriv : Bool) (vertexIndices : Nat → Nat)
    (inDesc : OsdVertexBufferDescriptor) (inQ : Nat → K)
    (st : (Nat → K) × (Nat → K)) : (Nat → K) × (Nat → K) :=
  let inOffset := inDesc.offset
  (List.finRange 4).foldl (fun st i =>
    (List.finRange 4).foldl (fun st j =>
      let src := inOffset + vertexIndices (i.val + j.val * 4) * inDesc.stride
      (List.range inDesc.length).foldl (fun st k =>
        let BU := setAt st.1 (i.val * inDesc.length + k)
          (st.1 (i.val * inDesc.length + k) + inQ (src + k) * W.B j)
        let DU := if evalDeriv then
            setAt st.2 (i.val * inDesc.length + k)
              (st.2 (i.val * inDesc.length + k) + inQ (src + k) * W.D j)
          else st.2
        (BU, DU)) st) st) st

/-- The second pass of `evalBSpline`, lines 149-158, on the state
`(outQ, outDQU, outDQV)`; `Q`, `dQU`, `dQV` are the three buffers advanced by
`outDesc.offset`. -/
def blendV (W : BasisWeights K) (evalDeriv : Bool) (length offset : Nat)
    (BU DU : Nat → K) (st : (Nat → K) × (Nat → K) × (Nat → K)) :
    (Nat → K) × (Nat → K) × (Nat → K) :=
  (List.finRange 4).foldl (fun st i =>
    (List.range length).foldl (fun st k =>
      let Q := setAt st.1 (offset + k) (st.1 (offset + k) + BU (length * i.val + k) * W.B i)
      if evalDeriv then
        (Q,
         setAt st.2.1 (offset + k) (st.2.1 (offset + k) + DU (length * i.val + k) * W.B i),
         setAt st.2.2 (offset + k) (st.2.2 (offset + k) + BU (length * i.val + k) * W.D i))
      else (Q, st.2.1, st.2.2)) st) st

/-- Embeds `evalBSpline`, lines 94-159.  `outDQU` and `outDQV` are `none` for
null pointers.  The result is `none` when the `assert` fails, and when
derivatives are evaluated but one of the two derivative pointers is null (the
source then clears and accumulates through that null pointer). -/
def evalBSpline (u v : K) (vertexIndices : Nat → Nat)
    (inDesc : OsdVertexBufferDescriptor) (inQ : Nat → K)
    (outDesc : OsdVertexBufferDescriptor) (outQ : Nat → K)
    (outDQU outDQV : Option (Nat → K)) : Option (EvalResult K) :=
  if ¬ capacityOK inDesc outDesc then none else
  let evalDeriv := outDQU.isSome || outDQV.isSome
  let zero : Nat → K := fun _ => 0
  let scratch := accumulateU (evalCubicBSpline u) evalDeriv vertexIndices inDesc inQ
    (memsetZero zero 0 (inDesc.length * 4), memsetZero zero 0 (inDesc.length * 4))
  let BU := scratch.1
  let DU := scratch.2
  let W := evalCubicBSpline v
  match outDQU, outDQV with
  | none, none =>
    let r := blendV W evalDeriv inDesc.length outDesc.offset BU DU
      (memsetZero outQ outDesc.offset inDesc.length, zero, zero)
    some { Q := r.1, dQU := none, dQV := none }
  | some dQU, some dQV =>
    let r := blendV W evalDeriv inDesc.length outDesc.offset BU DU
      (memsetZero outQ outDesc.offset inDesc.length,
       memsetZero dQU outDesc.offset inDesc.length,
       memsetZero dQV outDesc.offset inDesc.length)
    some { Q := r.1, dQU := some r.2.1, dQV := some r.2.2 }
  | _, _ => none

/-! ## Gregory patch evaluation -/

/-- The C math library as used by `csf` and `evalGregory`: `cosf`, `sinf`
(and `cos`, which differs from `cosf` only in precision) and the constant
`M_PI`.  Over the reals these are `Real.cos`, `Real.sin` and `Real.pi`. -/
structure LibM (K : Type) where
  cosf : K → K
  sinf : K → K
  pi : K

/-- Embeds `csf(unsigned int n, unsigned int j)`, lines 184-192. -/
def csf (M : LibM K) (n j : Nat) : K :=
  if j % 2 = 0 then
    M.cosf ((2 * M.pi * (((j - 0 : Nat) : K) / 2)) / ((n : K) + 3))
  else
    M.sinf ((2 * M.pi * (((j - 1 : Nat) : K) / 2)) / ((n : K) + 3))

/-- The table `static float const ef[7]` of `evalGregory`, lines 208-211. -/
def ef : List K :=
  [813008 / 1000000, 500000 / 1000000, 363636 / 1000000, 287505 / 1000000,
   238692 / 1000000, 204549 / 1000000, 179211 / 1000000]

/-- Contents, at allocation, of the `alloca` arrays `r`, `f`, `e0` and `e1` of
`evalGregory`: the source never clears them, `e0` and `e1` are updated with
`+=`, and `r` is read back at indices computed independently of the writes. -/
structure GregoryScratch (K : Type) where
  r : Nat → K
  f : Nat → K
  e0 : Nat → K
  e1 : Nat → K

/-- State of the one-ring loop of one corner, lines 244-267: the array `f`
with the position of the pointer `fp` in it, the accumulator `oQ`, and the
array `r` with the position of the pointer `rp` in it.  `rInBounds` records
whether every store `*rp = ...` made so far fell inside the entries
allocated for `r`. -/
structure RingState (K : Type) where
  f : Nat → K
  fp : Nat
  oQ : Nat → K
  r : Nat → K
  rp : Nat
  rInBounds : Bool

/-- The one-ring loop of one corner, lines 244-267 of `evalGregory`.
`valenceTable`, `inQo` and `Q` are the pointers of the same names, as maps
from the index applied to them; `rSize` is the number of entries allocated
for `r` (line 223). -/
def ringLoop (valenceTable : Nat → Nat) (valence : Nat) (length stride rSize : Nat)
    (inQo Q : Nat → K) (st : RingState K) : RingState K :=
  (List.range valence).foldl (fun st i =>
    let im := (i + valence - 1) &&& valence
    let ip := (i + 1) % valence
    let idx_neighbor := valenceTable (2 * i + 0 + 1)
    let idx_diagonal := valenceTable (2 * i + 1 + 1)
    let idx_neighbor_p := valenceTable (2 * ip + 0 + 1)
    let idx_neighbor_m := valenceTable (2 * im + 0 + 1)
    let idx_diagonal_m := valenceTable (2 * im + 1 + 1)
    let neighbor : Nat → K := fun k => inQo (idx_neighbor * stride + k)
    let diagonal : Nat → K := fun k => inQo (idx_diagonal * stride + k)
    let neighbor_p : Nat → K := fun k => inQo (idx_neighbor_p * stride + k)
    let neighbor_m : Nat → K := fun k => inQo (idx_neighbor_m * stride + k)
    let diagonal_m : Nat → K := fun k => inQo (idx_diagonal_m * stride + k)
    (List.range length).foldl (fun st k =>
      let x := (Q k * (valence : K) + (neighbor_p k + neighbor k) * 2 + diagonal k)
        / ((valence : K) + 5)
      { f := setAt st.f st.fp x
        fp := st.fp + 1
        oQ := setAt st.oQ k (st.oQ k + x)
        r := setAt st.r st.rp
          ((neighbor_p k - neighbor_m k) / 3 + (diagonal k - diagonal_m k) / 6)
        rp := st.rp + 1
        rInBounds := st.rInBounds && decide (st.rp < rSize) }) st) st

/-- State of the loop over the four corners, lines 229-287: `valences[4]`,
the array `r` with the position of `rp`, and the arrays `opos`, `e0`, `e1`.
`rInBounds` records whether every store through `rp` made so far fell inside
the `length*4*maxValence` entries allocated for `r`. -/
structure CornerState (K : Type) where
  valences : Fin 4 → Nat
  r : Nat → K
  rp : Nat
  opos : Nat → K
  e0 : Nat → K
  e1 : Nat → K
  rInBounds : Bool

/-- One iteration of the loop over the corners, lines 229-287 of
`evalGregory`, its increment `rp += maxValence*length` included. -/
def cornerStep (M : LibM K) (f0 : Nat → K) (vertexValenceBuffer : Nat → Nat) (maxValence : Nat)
    (vertexIndices : Nat → Nat) (inDesc : OsdVertexBufferDescriptor) (inQ : Nat → K)
    (st : CornerState K) (vid : Fin 4) : CornerState K :=
  let length := inDesc.length
  let inQo : Nat → K := fun n => inQ (inDesc.offset + n)
  let vertexID := vertexIndices vid.val
  let valenceTable : Nat → Nat :=
    fun n => vertexValenceBuffer (vertexID * (2 * maxValence + 1) + n)
  let valence := valenceTable 0
  let valences := Function.update st.valences vid valence
  let Q : Nat → K := fun k => inQo (vertexID * inDesc.stride + k)
  let ring := ringLoop valenceTable valence length inDesc.stride (length * 4 * maxValence) inQo Q
    { f := f0, fp := 0, oQ := memsetZero (fun _ => 0) 0 length, r := st.r, rp := st.rp,
      rInBounds := st.rInBounds }
  let f := ring.f
  let opos := (List.range length).foldl (fun opos k =>
    setAt opos (vid.val * length + k) (ring.oQ k / (valence : K))) st.opos
  let e := (List.range valence).foldl (fun (e : (Nat → K) × (Nat → K)) i =>
    let im := (i + valence - 1) % valence
    (List.range length).foldl (fun (e : (Nat → K) × (Nat → K)) k =>
      let x := 1 / 2 * (f (i * length + k) + f (im * length + k))
      (setAt e.1 (vid.val * length + k)
         (e.1 (vid.val * length + k) + csf M (valence - 3) (2 * i) * x),
       setAt e.2 (vid.val * length + k)
         (e.2 (vid.val * length + k) + csf M (valence - 3) (2 * i + 1) * x))) e) (st.e0, st.e1)
  let e := (List.range length).foldl (fun (e : (Nat → K) × (Nat → K)) k =>
    (setAt e.1 (vid.val * length + k) (e.1 (vid.val * length + k) * ef.getD (valence - 3) 0),
     setAt e.2 (vid.val * length + k) (e.2 (vid.val * length + k) * ef.getD (valence - 3) 0))) e
  { valences := valences
    r := ring.r
    rp := ring.rp + maxValence * length
    opos := opos
    e0 := e.1
    e1 := e.2
    rInBounds := ring.rInBounds }

/-- The loop over the four corners, lines 229-287 of `evalGregory`. -/
def gregoryCorners (M : LibM K) (scratch : GregoryScratch K) (vertexValenceBuffer : Nat → Nat)
    (maxValence : Nat) (vertexIndices : Nat → Nat) (inDesc : OsdVertexBufferDescriptor)
    (inQ : Nat → K) : CornerState K :=
  (List.finRange 4).foldl
    (cornerStep M scratch.f vertexValenceBuffer maxValence vertexIndices inDesc inQ)
    { valences := fun _ => 0, r := scratch.r, rp := 0, opos := fun _ => 0,
      e0 := scratch.e0, e1 := scratch.e1, rInBounds := true }

/-- The arrays `Ep`, `Em`, `Fp`, `Fm` of `evalGregory`. -/
structure TessState (K : Type) where
  Ep : Nat → K
  Em : Nat → K
  Fp : Nat → K
  Fm : Nat → K

/-- One iteration of the "tess control" loop, lines 295-336 of `evalGregory`. -/
def tessStep (M : LibM K) (c : CornerState K) (quadOffsetBuffer : Nat → Nat)
    (maxValence length : Nat) (st : TessState K) (vid : Fin 4) : TessState K :=
  let ip : Fin 4 := ⟨(vid.val + 1) % 4, Nat.mod_lt _ (by decide)⟩
  let im : Fin 4 := ⟨(vid.val + 3) % 4, Nat.mod_lt _ (by decide)⟩
  let n := c.valences vid
  let quadOffsets := quadOffsetBuffer
  let start := quadOffsets vid.val &&& 0x00ff
  let prev := (quadOffsets vid.val &&& 0xff00) / 256
  let st1 := (List.range length).foldl (fun (st : TessState K) k =>
    let ofs := vid.val * length + k
    { st with
      Ep := setAt st.Ep ofs
        (c.opos ofs + c.e0 ofs * csf M (n - 3) (2 * start)
          + c.e1 ofs * csf M (n - 3) (2 * start + 1))
      Em := setAt st.Em ofs
        (c.opos ofs + c.e0 ofs * csf M (n - 3) (2 * prev)
          + c.e1 ofs * csf M (n - 3) (2 * prev + 1)) }) st
  let np := c.valences ip
  let nm := c.valences im
  let prev_p := quadOffsets ip.val &&& (0xff00 / 256)
  let start_m := quadOffsets im.val &&& 0x00ff
  let Em_ip : Nat → K := fun k =>
    c.opos (ip.val * length + k) + c.e0 (ip.val * length + k) * csf M (np - 3) (2 * prev_p)
      + c.e1 (ip.val * length + k) * csf M (np - 3) (2 * prev_p + 1)
  let Ep_im : Nat → K := fun k =>
    c.opos (im.val * length + k) + c.e0 (im.val * length + k) * csf M (nm - 3) (2 * start_m)
      + c.e1 (im.val * length + k) * csf M (nm - 3) (2 * start_m + 1)
  let s1 : K := 3 - 2 * csf M (n - 3) 2 - csf M (np - 3) 2
  let s2 : K := 2 * csf M (n - 3) 2
  let s3 : K := 3 - 2 * M.cosf (2 * M.pi / (n : K)) - M.cosf (2 * M.pi / (nm : K))
  let rp : Nat → K := fun m => c.r (vid.val * maxValence * length + m)
  (List.range length).foldl (fun (st : TessState K) k =>
    let ofs := vid.val * length + k
    { st with
      Fp := setAt st.Fp ofs
        ((csf M (np - 3) 2 * c.opos ofs + s1 * st.Ep ofs + s2 * Em_ip k
          + rp (start * length + k)) / 3)
      Fm := setAt st.Fm ofs
        ((csf M (nm - 3) 2 * c.opos ofs + s3 * st.Em ofs + s2 * Ep_im k
          - rp (prev * length + k)) / 3) }) st1

/-- The "tess control" loop, lines 291-336 of `evalGregory`. -/
def gregoryTess (M : LibM K) (c : CornerState K) (quadOffsetBuffer : Nat → Nat)
    (maxValence length : Nat) : TessState K :=
  (List.finRange 4).foldl (tessStep M c quadOffsetBuffer maxValence length)
    { Ep := fun _ => 0, Em := fun _ => 0, Fp := fun _ => 0, Fm := fun _ => 0 }

/-- The pointer table `p[20]`, lines 338-345: `gregoryPoint c t length n` is
the array that `p[n]` points to. -/
def gregoryPoint (c : CornerState K) (t : TessState K) (length n : Nat) : Nat → K :=
  fun k =>
    let ofs := n / 5 * length
    match n % 5 with
    | 0 => c.opos (ofs + k)
    | 1 => t.Ep (ofs + k)
    | 2 => t.Em (ofs + k)
    | 3 => t.Fp (ofs + k)
    | _ => t.Fm (ofs + k)

/-- The grid `q` of `evalGregory`, lines 347-372: the four clamped
denominators, the four interior slots and the twelve copied slots. -/
def gregoryGrid [DecidableEq K] (u v : K) (c : CornerState K) (t : TessState K)
    (length : Nat) : Nat → K :=
  let p := gregoryPoint c t length
  let U := 1 - u
  let V := 1 - v
  let d11 := if u + v = 0 then 1 else u + v
  let d12 := if U + v = 0 then 1 else U + v
  let d21 := if u + V = 0 then 1 else u + V
  let d22 := if U + V = 0 then 1 else U + V
  let q := (List.range length).foldl (fun q k =>
    let q := setAt q (5 * length + k) ((u * p 3 k + v * p 4 k) / d11)
    let q := setAt q (6 * length + k) ((U * p 9 k + v * p 8 k) / d12)
    let q := setAt q (9 * length + k) ((u * p 19 k + V * p 18 k) / d21)
    setAt q (10 * length + k) ((U * p 13 k + V * p 14 k) / d22)) (fun _ => 0)
  let q := memcpyFrom q (0 * length) (p 0) 0 length
  let q := memcpyFrom q (1 * length) (p 1) 0 length
  let q := memcpyFrom q (2 * length) (p 7) 0 length
  let q := memcpyFrom q (3 * length) (p 5) 0 length
  let q := memcpyFrom q (4 * length) (p 2) 0 length
  let q := memcpyFrom q (7 * length) (p 6) 0 length
  let q := memcpyFrom q (8 * length) (p 16) 0 length
  let q := memcpyFrom q (11 * length) (p 12) 0 length
  let q := memcpyFrom q (12 * length) (p 15) 0 length
  let q := memcpyFrom q (13 * length) (p 17) 0 length
  let q := memcpyFrom q (14 * length) (p 11) 0 length
  memcpyFrom q (15 * length) (p 10) 0 length

/-- The second pass of `evalGregory`, lines 414-423, on the state
`(outQ, outDQU, outDQV)`: it reads the scratch arrays at index `i`, where the
second pass of `evalBSpline` reads them at `inDesc.length*i+k`. -/
def blendVGregory (W : BasisWeights K) (evalDeriv : Bool) (length offset : Nat)
    (BU DU : Nat → K) (st : (Nat → K) × (Nat → K) × (Nat → K)) :
    (Nat → K) × (Nat → K) × (Nat → K) :=
  (List.finRange 4).foldl (fun st i =>
    (List.range length).foldl (fun st k =>
      let Q := setAt st.1 (offset + k) (st.1 (offset + k) + BU i.val * W.B i)
      if evalDeriv then
        (Q,
         setAt st.2.1 (offset + k) (st.2.1 (offset + k) + DU i.val * W.B i),
         setAt st.2.2 (offset + k) (st.2.2 (offset + k) + BU i.val * W.D i))
      else (Q, st.2.1, st.2.2)) st) st

/-- Embeds `evalGregory`, lines 195-424.  `M` is the math library and
`scratch` the contents of the uncleared stack arrays.  The grid `q` is
assembled (`gregoryGrid`) and, as in the source, not read afterwards: the
first pass reads `inQ` through `vertexIndices[i+j*4]`.  The output buffers
are cleared over `outDesc.length` entries.  The result is `none` when the
`assert` fails, when the loop over the corners has stored past the end of
the stack array `r`, and when derivatives are evaluated but one of the two
derivative pointers is null. -/
def evalGregory [DecidableEq K] (M : LibM K) (scratch : GregoryScratch K) (u v : K)
    (vertexValenceBuffer : Nat → Nat) (quadOffsetBuffer : Nat → Nat) (maxValence : Nat)
    (vertexIndices : Nat → Nat)
    (inDesc : OsdVertexBufferDescriptor) (inQ : Nat → K)
    (outDesc : OsdVertexBufferDescriptor) (outQ : Nat → K)
    (outDQU outDQV : Option (Nat → K)) : Option (EvalResult K) :=
  if ¬ capacityOK inDesc outDesc then none else
  let evalDeriv := outDQU.isSome || outDQV.isSome
  let length := inDesc.length
  let c := gregoryCorners M scratch vertexValenceBuffer maxValence vertexIndices inDesc inQ
  if c.rInBounds = false then none else
  let t := gregoryTess M c quadOffsetBuffer maxValence length
  let _q := gregoryGrid u v c t length
  let zero : Nat → K := fun _ => 0
  let scratchU := accumulateU (univar4x4 u) evalDeriv vertexIndices inDesc inQ
    (memsetZero zero 0 (inDesc.length * 4), memsetZero zero 0 (inDesc.length * 4))
  let BU := scratchU.1
  let DU := scratchU.2
  let W := univar4x4 v
  match outDQU, outDQV with
  | none, none =>
    let r := blendVGregory W evalDeriv inDesc.length outDesc.offset BU DU
      (memsetZero outQ outDesc.offset outDesc.length, zero, zero)
    some { Q := r.1, dQU := none, dQV := none }
  | some dQU, some dQV =>
    let r := blendVGregory W evalDeriv inDesc.length outDesc.offset BU DU
      (memsetZero outQ outDesc.offset outDesc.length,
       memsetZero dQU outDesc.offset outDesc.length,
       memsetZero dQV outDesc.offset outDesc.length)
    some { Q := r.1, dQU := some r.2.1, dQV := some r.2.2 }
  | _, _ => none

end Kernels

/-! ## Named parts of `evalGregory`

The local variables of `evalGregory` that statements speak about, as
definitions of their own; `tessStep_unfold` and `gregoryGrid_unfold` show that
they are the expressions used by `tessStep` and `gregoryGrid`. -/

section NamedParts

variable {K : Type} [Field K]

/-- The local `start` of `evalGregory`, line 301: `quadOffsets[vid] & 0x00ff`,
as a function of the entry `w = quadOffsets[vid]`. -/
def quadStart (w : Nat) : Nat := w &&& 0x00ff

/-- The local `prev` of `evalGregory`, line 302:
`(quadOffsets[vid] & 0xff00) / 256`, as a function of the entry. -/
def quadPrev (w : Nat) : Nat := (w &&& 0xff00) / 256

/-- The local `prev_p` of `evalGregory`, line 313:
`quadOffsets[ip] & 0xff00 / 256`, as a function of the entry
`w = quadOffsets[ip]`; in C the division binds tighter than `&`. -/
def quadPrevP (w : Nat) : Nat := w &&& (0xff00 / 256)

/-- The common shape of `Ep[ofs]`, `Em[ofs]`, `Em_ip[k]` and `Ep_im[k]`, lines
306, 307, 323 and 324: the edge point of corner `corner` for the rotation index
`rot`, `opos + e0 * csf(n-3, 2*rot) + e1 * csf(n-3, 2*rot+1)` with `n` the
valence of that corner. -/
def cornerE (M : LibM K) (c : CornerState K) (length : Nat) (corner : Fin 4) (rot k : Nat) : K :=
  c.opos (corner.val * length + k)
    + c.e0 (corner.val * length + k) * csf M (c.valences corner - 3) (2 * rot)
    + c.e1 (corner.val * length + k) * csf M (c.valences corner - 3) (2 * rot + 1)

/-- The denominator `d11` of `evalGregory`, line 348. -/
def d11 [DecidableEq K] (u v : K) : K := if u + v = 0 then 1 else u + v

/-- The denominator `d12` of `evalGregory`, line 349, with `U = 1-u`. -/
def d12 [DecidableEq K] (u v : K) : K := if (1 - u) + v = 0 then 1 else (1 - u) + v

/-- The denominator `d21` of `evalGregory`, line 350, with `V = 1-v`. -/
def d21 [DecidableEq K] (u v : K) : K := if u + (1 - v) = 0 then 1 else u + (1 - v)

/-- The denominator `d22` of `evalGregory`, line 351. -/
def d22 [DecidableEq K] (u v : K) : K :=
  if (1 - u) + (1 - v) = 0 then 1 else (1 - u) + (1 - v)

/-- The local `s1` of `evalGregory`, line 327, for the valences `n` of the
current and `np` of the next corner. -/
def s1 (M : LibM K) (n np : Nat) : K := 3 - 2 * csf M (n - 3) 2 - csf M (np - 3) 2

/-- The local `s2` of `evalGregory`, line 328. -/
def s2 (M : LibM K) (n : Nat) : K := 2 * csf M (n - 3) 2

/-- The local `s3` of `evalGregory`, line 329, for the valences `n` of the
current and `nm` of the previous corner. -/
def s3 (M : LibM K) (n nm : Nat) : K :=
  3 - 2 * M.cosf (2 * M.pi / (n : K)) - M.cosf (2 * M.pi / (nm : K))

end NamedParts

/-! ## The baseline tool (`regression/hbr_regression/baseline.cpp`) -/

section BaselineTool

/-- Modelled from the spec: the enum `Scheme` is declared in
`regression/common/shape_utils.h`, which is not among the sources at hand; the
usage line of the tool names its three values and `parseArgs` its three
enumerators. -/
inductive Scheme where
  | kBilinear
  | kCatmark
  | kLoop
deriving DecidableEq

/-- The globals `g_shapeindex`, `g_objfile` and `g_scheme` of `baseline.cpp`,
lines 225-229. -/
structure Globals where
  g_shapeindex : Int
  g_objfile : String
  g_scheme : Scheme
deriving DecidableEq

/-- The initial values of the globals: `g_shapeindex=-1`, an empty
`g_objfile`, `g_scheme=kCatmark`. -/
def initialGlobals : Globals :=
  { g_shapeindex := -1, g_objfile := "", g_scheme := Scheme.kCatmark }

/-- How a call of `parseArgs` ends: it returns with the globals and the number
of calls of `usage` made, it calls `exit(0)`, or it passes a null pointer to
`strcmp` (`-scheme` as the last argument); `outOfFuel` is the loop bound of
the embedding running out. -/
inductive ParseOutcome where
  | returned (g : Globals) (usageCalls : Nat)
  | exited (g : Globals) (usageCalls : Nat)
  | nullDeref
  | outOfFuel
deriving DecidableEq

/-- The loop of `parseArgs`, lines 237-268 of `baseline.cpp`, from the loop
test on: `i` and `argc` are the variables of those names, `g` the globals and
`usageCalls` the number of calls of `usage` so far.  `numShapes` is
`g_shapes.size()` and `atoi` the C library function. -/
def parseArgsLoop (numShapes : Nat) (atoi : String → Int) (argv : List String) :
    Nat → Nat → Nat → Globals → Nat → ParseOutcome
  | 0, _, _, _, _ => ParseOutcome.outOfFuel
  | fuel + 1, i, argc, g, usageCalls =>
    if ¬ i < argc then ParseOutcome.returned g usageCalls
    else if argv.getD i "" = "-shape" then
      let i1 := if i < argc - 1 then i + 1 else i
      let g1 := if i < argc - 1 then { g with g_shapeindex := atoi (argv.getD (i + 1) "") } else g
      if g1.g_shapeindex < 0 ∨ g1.g_shapeindex > (numShapes : Int) then
        ParseOutcome.exited g1 usageCalls
      else parseArgsLoop numShapes atoi argv fuel (i1 + 1) argc g1 usageCalls
    else if argv.getD i "" = "-scheme" then
      if i < argc - 1 then
        let scheme := argv.getD (i + 1) ""
        if scheme = "bilinear" then
          parseArgsLoop numShapes atoi argv fuel (i + 1 + 1) argc
            { g with g_scheme := Scheme.kBilinear } usageCalls
        else if scheme = "catmark" then
          parseArgsLoop numShapes atoi argv fuel (i + 1 + 1) argc
            { g with g_scheme := Scheme.kCatmark } usageCalls
        else if scheme = "loop" then
          parseArgsLoop numShapes atoi argv fuel (i + 1 + 1) argc
            { g with g_scheme := Scheme.kLoop } usageCalls
        else ParseOutcome.exited g usageCalls
      else ParseOutcome.nullDeref
    else
      let argc1 := 1
      if i < argc1 then
        parseArgsLoop numShapes atoi argv fuel (i + 1 + 1) argc1
          { g with g_objfile := argv.getD (i + 1) "" } usageCalls
      else
        parseArgsLoop numShapes atoi argv fuel (i + 1) argc1 g (usageCalls + 1)

/-- Embeds `parseArgs(int argc, char ** argv)`, lines 232-269 of
`baseline.cpp`, with `argc = argv.length`, started on the globals `g`.  The
loop runs at most `argc` times, so the bound `argc + 1` is never exhausted. -/
def parseArgs (numShapes : Nat) (atoi : String → Int) (argv : List String) (g : Globals) :
    ParseOutcome :=
  let argc := argv.length
  let usageCalls := if argc = 1 then 1 else 0
  parseArgsLoop numShapes atoi argv (argc + 1) 1 argc g usageCalls

/-- What `main` does after `parseArgs`, lines 278-321 of `baseline.cpp`. -/
inductive MainBranch where
  | processFile (objfile : String)
  | processShapes (shapeindex : Int)
  | nothing
  | stopped
deriving DecidableEq

/-- The branch selection of `main`, lines 278-321 of `baseline.cpp`: the file
branch when `g_objfile.size()` is nonzero, else the shape branch when
`g_shapeindex>=0`, else neither. -/
def mainBranch (numShapes : Nat) (atoi : String → Int) (argv : List String) : MainBranch :=
  match parseArgs numShapes atoi argv initialGlobals with
  | ParseOutcome.returned g _ =>
    if g.g_objfile.length ≠ 0 then MainBranch.processFile g.g_objfile
    else if g.g_shapeindex ≥ 0 then MainBranch.processShapes g.g_shapeindex
    else MainBranch.nothing
  | _ => MainBranch.stopped

end BaselineTool

/-! ## Sample inputs -/

section Samples

/-- A regular 4x4 lattice of sixteen vertices, vertex `n` in row `n / 4` and
column `n % 4`, read as a 4x4 control grid in row-major order. -/
def latticeIndices : Nat → Nat := fun n => n

/-- One channel per vertex: `1` at the inner vertex 5 and `0` elsewhere. -/
def bumpQ : Nat → ℚ := fun n => if n = 5 then 1 else 0

/-- Descriptor of a buffer with one channel per vertex. -/
def desc1 : OsdVertexBufferDescriptor := { offset := 0, length := 1, stride := 1 }

/-- Descriptor of a buffer with three channels per vertex. -/
def desc3 : OsdVertexBufferDescriptor := { offset := 0, length := 3, stride := 3 }

/-- Descriptor of a buffer with six channels per vertex. -/
def desc6 : OsdVertexBufferDescriptor := { offset := 0, length := 6, stride := 6 }

/-- Descriptor of an output buffer with stride 3 whose `length` field is 1. -/
def descOut1 : OsdVertexBufferDescriptor := { offset := 0, length := 1, stride := 3 }

/-- Three channels per vertex: the lattice position `(n % 4, n / 4, 0)` of
vertex `n`. -/
def positionQ : Nat → ℚ := fun m =>
  match m % 3 with
  | 0 => ((m / 3 % 4 : Nat) : ℚ)
  | 1 => ((m / 3 / 4 : Nat) : ℚ)
  | _ => 0

/-- Six channels per vertex: the lattice position of `positionQ` followed by
the normal `(0, 0, 1)`. -/
def positionNormalQ : Nat → ℚ := fun m =>
  match m % 6 with
  | 0 => ((m / 6 % 4 : Nat) : ℚ)
  | 1 => ((m / 6 / 4 : Nat) : ℚ)
  | 5 => 1
  | _ => 0

/-- One channel per vertex: the value of vertex `n` is `n`. -/
def rampQ : Nat → ℚ := fun n => (n : ℚ)

/-- Index list of the Gregory patch whose corners are the four inner lattice
vertices 5, 6, 10, 9; the entries after the four corners are those of patches
that follow in the index array (here the same patch again). -/
def gregoryIndices : Nat → Nat := fun n => [5, 6, 10, 9].getD (n % 4) 0

/-- Valence tables of the lattice for `maxValence = 4` (nine entries per
vertex): each inner vertex has valence 4 and lists its neighbors and
diagonals in the order +column, +row, -column, -row. -/
def latticeValenceBuffer : Nat → Nat := fun n =>
  match n / 9 with
  | 5 => [4, 6, 10, 9, 8, 4, 0, 1, 2].getD (n % 9) 0
  | 6 => [4, 7, 11, 10, 9, 5, 1, 2, 3].getD (n % 9) 0
  | 10 => [4, 11, 15, 14, 13, 9, 5, 6, 7].getD (n % 9) 0
  | 9 => [4, 10, 14, 13, 12, 8, 4, 5, 6].getD (n % 9) 0
  | _ => 0

/-- Valence tables of the lattice for `maxValence = 16` (thirty-three entries
per vertex): each inner vertex has valence 4 and lists its neighbors and
diagonals in the order +column, +row, -column, -row; the unused entries are
zero. -/
def latticeValenceBuffer16 : Nat → Nat := fun n =>
  match n / 33 with
  | 5 => [4, 6, 10, 9, 8, 4, 0, 1, 2].getD (n % 33) 0
  | 6 => [4, 7, 11, 10, 9, 5, 1, 2, 3].getD (n % 33) 0
  | 10 => [4, 11, 15, 14, 13, 9, 5, 6, 7].getD (n % 33) 0
  | 9 => [4, 10, 14, 13, 12, 8, 4, 5, 6].getD (n % 33) 0
  | _ => 0

/-- Quad offsets `start + 256 * prev` of the four corners 5, 6, 10, 9: the
ring positions of the edges towards the next and the previous corner. -/
def latticeQuadOffsets : Nat → Nat := fun n => [256, 513, 770, 3].getD n 0

/-- A stand-in math library over the rationals, exact on the quarter turns
that occur at valence 4 with `pi` represented by `2`: `cosf x` and `sinf x`
are the cosine and sine of `x * (pi / 2)` for integer `x`. -/
def quarterTurnLibM : LibM ℚ :=
  { cosf := fun x => if x.den = 1 then [1, 0, -1, 0].getD (x.num % 4).toNat 0 else 0
    sinf := fun x => if x.den = 1 then [0, 1, 0, -1].getD (x.num % 4).toNat 0 else 0
    pi := 2 }

/-- Stack arrays that happen to hold zeros at allocation. -/
def zeroScratch : GregoryScratch ℚ :=
  { r := fun _ => 0, f := fun _ => 0, e0 := fun _ => 0, e1 := fun _ => 0 }

end Samples

/-! ## Auxiliary definitions used in the statements and proofs -/

section Auxiliary

variable {K : Type} [Field K]

/-- The loop `for (k = 0; k < n; ++k) a[base + k] += g k`. -/
def addLoop (n base : Nat) (g : Nat → K) (a : Nat → K) : Nat → K :=
  (List.range n).foldl (fun a k => setAt a (base + k) (a (base + k) + g k)) a

/-- What one row of the first pass accumulates with the weights `w`:
the weighted sum over `j` of channel `k` of vertex `vertexIndices[i + j*4]`. -/
def rowSum (w : Fin 4 → K) (vertexIndices : Nat → Nat)
    (inDesc : OsdVertexBufferDescriptor) (inQ : Nat → K) (i : Fin 4) (k : Nat) : K :=
  ∑ j : Fin 4, inQ (inDesc.offset + vertexIndices (i.val + j.val * 4) * inDesc.stride + k) * w j

/-- Channel `k` of the control vertex in row `i`, column `j` of the 4x4 index
list: `inQ[inDesc.offset + vertexIndices[4*i + j] * inDesc.stride + k]`. -/
def controlValue (vertexIndices : Nat → Nat) (inDesc : OsdVertexBufferDescriptor)
    (inQ : Nat → K) (i j : Fin 4) (k : Nat) : K :=
  inQ (inDesc.offset + vertexIndices (4 * i.val + j.val) * inDesc.stride + k)

/-- The loop `for (k = 0; k < n; ++k) a[base + k] = g k`. -/
def setLoop (n base : Nat) (g : Nat → K) (a : Nat → K) : Nat → K :=
  (List.range n).foldl (fun a k => setAt a (base + k) (g k)) a

/-- The value `*fp` that the one-ring loop of `evalGregory` computes for edge
`i` and channel `k` (line 261), for the valence table `valenceTable`, the
valence `valence` and the corner vertex `vertexID`. -/
def ringF (valenceTable : Nat → Nat) (valence vertexID : Nat)
    (inDesc : OsdVertexBufferDescriptor) (inQ : Nat → K) (i k : Nat) : K :=
  (inQ (inDesc.offset + (vertexID * inDesc.stride + k)) * (valence : K)
    + (inQ (inDesc.offset + (valenceTable (2 * ((i + 1) % valence) + 0 + 1) * inDesc.stride + k))
        + inQ (inDesc.offset + (valenceTable (2 * i + 0 + 1) * inDesc.stride + k))) * 2
    + inQ (inDesc.offset + (valenceTable (2 * i + 1 + 1) * inDesc.stride + k)))
  / ((valence : K) + 5)

/-- The valence of corner `vid`: entry 0 of its valence table,
`vertexValenceBuffer[vertexIndices[vid] * (2*maxValence+1)]`. -/
def cornerValence (vertexValenceBuffer : Nat → Nat) (maxValence : Nat)
    (vertexIndices : Nat → Nat) (vid : Fin 4) : Nat :=
  vertexValenceBuffer (vertexIndices vid.val * (2 * maxValence + 1))

/-- Channel `k` of the input vertex of corner `vid` itself. -/
def cornerVertexValue (vertexIndices : Nat → Nat) (inDesc : OsdVertexBufferDescriptor)
    (inQ : Nat → K) (vid : Fin 4) (k : Nat) : K :=
  inQ (inDesc.offset + vertexIndices vid.val * inDesc.stride + k)

/-- Channel `k` of the `j`-th neighbor in the one-ring of corner `vid`: the
vertex whose index is entry `2*j + 1` of the valence table of that corner. -/
def neighborValue (vertexValenceBuffer : Nat → Nat) (maxValence : Nat)
    (vertexIndices : Nat → Nat) (inDesc : OsdVertexBufferDescriptor) (inQ : Nat → K)
    (vid : Fin 4) (j k : Nat) : K :=
  inQ (inDesc.offset
    + vertexValenceBuffer (vertexIndices vid.val * (2 * maxValence + 1) + (2 * j + 1))
      * inDesc.stride + k)

/-- Channel `k` of the `j`-th diagonal in the one-ring of corner `vid`: the
vertex whose index is entry `2*j + 2` of the valence table of that corner. -/
def diagonalValue (vertexValenceBuffer : Nat → Nat) (maxValence : Nat)
    (vertexIndices : Nat → Nat) (inDesc : OsdVertexBufferDescriptor) (inQ : Nat → K)
    (vid : Fin 4) (j k : Nat) : K :=
  inQ (inDesc.offset
    + vertexValenceBuffer (vertexIndices vid.val * (2 * maxValence + 1) + (2 * j + 2))
      * inDesc.stride + k)

end Auxiliary

/-! ## Loop lemmas -/

section LoopLemmas

variable {K : Type} [Field K]

theorem addLoop_apply (n base : Nat) (g : Nat → K) (a : Nat → K) (m : Nat) :
    addLoop n base g a m
      = if base ≤ m ∧ m < base + n then a m + g (m - base) else a m := by
  induction n with
  | zero =>
    have : ¬ (base ≤ m ∧ m < base + 0) := by omega
    rw [if_neg this]
    simp [addLoop]
  | succ n ih =>
    have hstep : addLoop (n + 1) base g a
        = setAt (addLoop n base g a) (base + n) (addLoop n base g a (base + n) + g n) := by
      simp [addLoop, List.range_succ, List.foldl_append]
    rw [hstep]
    unfold setAt
    by_cases hm : m = base + n
    · subst hm
      have h1 : ¬ (base ≤ base + n ∧ base + n < base + n) := by omega
      have h2 : base ≤ base + n ∧ base + n < base + (n + 1) := by omega
      simp [ih, h1, h2]
    · rw [if_neg hm, ih]
      by_cases h : base ≤ m ∧ m < base + n
      · have h2 : base ≤ m ∧ m < base + (n + 1) := by omega
        rw [if_pos h, if_pos h2]
      · have h2 : ¬ (base ≤ m ∧ m < base + (n + 1)) := by omega
        rw [if_neg h, if_neg h2]

/-- Several `addLoop`s over the same index window add up. -/
theorem foldl_addLoop_apply {ι : Type} (n base : Nat) (g : ι → Nat → K) (l : List ι)
    (a : Nat → K) (m : Nat) :
    (l.foldl (fun a j => addLoop n base (g j) a) a) m
      = if base ≤ m ∧ m < base + n then a m + (l.map (fun j => g j (m - base))).sum
        else a m := by
  induction l generalizing a with
  | nil => simp
  | cons j l ih =>
    rw [List.foldl_cons, ih, addLoop_apply]
    by_cases h : base ≤ m ∧ m < base + n
    · simp only [if_pos h, List.map_cons, List.sum_cons]
      ring
    · simp only [if_neg h]

theorem foldl_fst_eq {σ τ ι : Type} (body : σ × τ → ι → σ × τ) (f : σ → ι → σ)
    (h : ∀ st x, (body st x).1 = f st.1 x) (l : List ι) (st : σ × τ) :
    (l.foldl body st).1 = l.foldl f st.1 := by
  induction l generalizing st with
  | nil => rfl
  | cons x l ih => rw [List.foldl_cons, ih, h, List.foldl_cons]

theorem foldl_snd_eq {σ τ ι : Type} (body : σ × τ → ι → σ × τ) (g : τ → ι → τ)
    (h : ∀ st x, (body st x).2 = g st.2 x) (l : List ι) (st : σ × τ) :
    (l.foldl body st).2 = l.foldl g st.2 := by
  induction l generalizing st with
  | nil => rfl
  | cons x l ih => rw [List.foldl_cons, ih, h, List.foldl_cons]

/-- Position of a flat index `i * n + k` among the rows of width `n`. -/
theorem row_index_iff (n i j k : Nat) (hk : k < n) :
    (j * n ≤ i * n + k ∧ i * n + k < j * n + n) ↔ j = i := by
  constructor
  · rintro ⟨h1, h2⟩
    by_contra hne
    rcases Nat.lt_or_gt_of_ne hne with hlt | hgt
    · have : (j + 1) * n ≤ i * n := Nat.mul_le_mul_right n hlt
      rw [Nat.add_mul, Nat.one_mul] at this
      omega
    · have : (i + 1) * n ≤ j * n := Nat.mul_le_mul_right n hgt
      rw [Nat.add_mul, Nat.one_mul] at this
      omega
  · rintro rfl
    omega

/-- Row-wise additions on disjoint or equal windows, one window per list entry. -/
theorem foldl_rows_apply {ι : Type} (n : Nat) (base : ι → Nat) (G : ι → Nat → K)
    (l : List ι) (a : Nat → K) (m : Nat) :
    (l.foldl (fun a i => fun m' =>
        if base i ≤ m' ∧ m' < base i + n then a m' + G i (m' - base i) else a m') a) m
      = a m + (l.map (fun i =>
          if base i ≤ m ∧ m < base i + n then G i (m - base i) else 0)).sum := by
  induction l generalizing a with
  | nil => simp
  | cons i l ih =>
    rw [List.foldl_cons, ih]
    by_cases h : base i ≤ m ∧ m < base i + n
    · simp only [if_pos h, List.map_cons, List.sum_cons]
      ring
    · simp only [if_neg h, List.map_cons, List.sum_cons, zero_add]

/-- The BU-component of the three nested loops of `accumulateU`. -/
theorem accumulateU_fst_fold (W : BasisWeights K) (evalDeriv : Bool) (vertexIndices : Nat → Nat)
    (inDesc : OsdVertexBufferDescriptor) (inQ : Nat → K) (st : (Nat → K) × (Nat → K)) :
    (accumulateU W evalDeriv vertexIndices inDesc inQ st).1
      = (List.finRange 4).foldl (fun a i => fun m' =>
          if i.val * inDesc.length ≤ m' ∧ m' < i.val * inDesc.length + inDesc.length then
            a m' + rowSum W.B vertexIndices inDesc inQ i (m' - i.val * inDesc.length)
          else a m') st.1 := by
  unfold accumulateU
  refine foldl_fst_eq _ _ (fun st i => ?_) _ _
  rw [foldl_fst_eq _ (fun a (j : Fin 4) => addLoop inDesc.length (i.val * inDesc.length)
      (fun k => inQ (inDesc.offset + vertexIndices (i.val + j.val * 4) * inDesc.stride + k)
        * W.B j) a)]
  · funext m'
    simp only [foldl_addLoop_apply, rowSum, Fin.sum_univ_def]
  · intro st j
    rw [foldl_fst_eq _ (fun a k => setAt a (i.val * inDesc.length + k)
      (a (i.val * inDesc.length + k)
        + inQ (inDesc.offset + vertexIndices (i.val + j.val * 4) * inDesc.stride + k) * W.B j))]
    · rfl
    · intro st k
      rfl

/-- The DU-component of the three nested loops of `accumulateU` when
derivatives are evaluated. -/
theorem accumulateU_snd_fold (W : BasisWeights K) (vertexIndices : Nat → Nat)
    (inDesc : OsdVertexBufferDescriptor) (inQ : Nat → K) (st : (Nat → K) × (Nat → K)) :
    (accumulateU W true vertexIndices inDesc inQ st).2
      = (List.finRange 4).foldl (fun a i => fun m' =>
          if i.val * inDesc.length ≤ m' ∧ m' < i.val * inDesc.length + inDesc.length then
            a m' + rowSum W.D vertexIndices inDesc inQ i (m' - i.val * inDesc.length)
          else a m') st.2 := by
  unfold accumulateU
  refine foldl_snd_eq _ _ (fun st i => ?_) _ _
  rw [foldl_snd_eq _ (fun a (j : Fin 4) => addLoop inDesc.length (i.val * inDesc.length)
      (fun k => inQ (inDesc.offset + vertexIndices (i.val + j.val * 4) * inDesc.stride + k)
        * W.D j) a)]
  · funext m'
    simp only [foldl_addLoop_apply, rowSum, Fin.sum_univ_def]
  · intro st j
    rw [foldl_snd_eq _ (fun a k => setAt a (i.val * inDesc.length + k)
      (a (i.val * inDesc.length + k)
        + inQ (inDesc.offset + vertexIndices (i.val + j.val * 4) * inDesc.stride + k) * W.D j))]
    · rfl
    · intro st k
      rfl

/-- Reading row `i`, channel `k` after the row-wise additions of a pass. -/
theorem rows_read (n : Nat) (G : Fin 4 → Nat → K) (a : Nat → K) (i : Fin 4) (k : Nat)
    (hk : k < n) :
    ((List.finRange 4).foldl (fun a (i : Fin 4) => fun m' =>
        if i.val * n ≤ m' ∧ m' < i.val * n + n then a m' + G i (m' - i.val * n)
        else a m') a) (i.val * n + k)
      = a (i.val * n + k) + G i k := by
  rw [foldl_rows_apply n (fun i : Fin 4 => i.val * n) G, ← Fin.sum_univ_def]
  congr 1
  have hrow : ∀ x : Fin 4, (x.val * n ≤ i.val * n + k ∧
      i.val * n + k < x.val * n + n) ↔ x = i := by
    intro x
    rw [row_index_iff _ _ _ _ hk]
    exact Fin.val_inj
  simp only [hrow]
  rw [Finset.sum_ite_eq' Finset.univ i]
  simp

/-- The scratch array `BU` after the first pass: row `i`, channel `k` has
gained the `B`-weighted sum of the four vertices read for that row. -/
theorem accumulateU_fst (W : BasisWeights K) (evalDeriv : Bool) (vertexIndices : Nat → Nat)
    (inDesc : OsdVertexBufferDescriptor) (inQ : Nat → K) (st : (Nat → K) × (Nat → K))
    (i : Fin 4) (k : Nat) (hk : k < inDesc.length) :
    (accumulateU W evalDeriv vertexIndices inDesc inQ st).1 (i.val * inDesc.length + k)
      = st.1 (i.val * inDesc.length + k) + rowSum W.B vertexIndices inDesc inQ i k := by
  rw [accumulateU_fst_fold]
  exact rows_read inDesc.length (rowSum W.B vertexIndices inDesc inQ) st.1 i k hk

/-- The scratch array `DU` after the first pass with derivatives. -/
theorem accumulateU_snd (W : BasisWeights K) (vertexIndices : Nat → Nat)
    (inDesc : OsdVertexBufferDescriptor) (inQ : Nat → K) (st : (Nat → K) × (Nat → K))
    (i : Fin 4) (k : Nat) (hk : k < inDesc.length) :
    (accumulateU W true vertexIndices inDesc inQ st).2 (i.val * inDesc.length + k)
      = st.2 (i.val * inDesc.length + k) + rowSum W.D vertexIndices inDesc inQ i k := by
  rw [accumulateU_snd_fold]
  exact rows_read inDesc.length (rowSum W.D vertexIndices inDesc inQ) st.2 i k hk

/-- The buffer `outQ` after the second pass of `evalBSpline`. -/
theorem blendV_Q (W : BasisWeights K) (evalDeriv : Bool) (length offset : Nat)
    (BU DU : Nat → K) (st : (Nat → K) × (Nat → K) × (Nat → K)) (m : Nat) :
    (blendV W evalDeriv length offset BU DU st).1 m
      = if offset ≤ m ∧ m < offset + length then
          st.1 m + ∑ i : Fin 4, BU (length * i.val + (m - offset)) * W.B i
        else st.1 m := by
  unfold blendV
  rw [foldl_fst_eq _ (fun a (i : Fin 4) => addLoop length offset
      (fun k => BU (length * i.val + k) * W.B i) a)]
  · simp only [foldl_addLoop_apply, Fin.sum_univ_def]
  · intro st i
    rw [foldl_fst_eq _ (fun a k => setAt a (offset + k)
      (a (offset + k) + BU (length * i.val + k) * W.B i))]
    · rfl
    · intro st k
      cases evalDeriv <;> rfl

/-- The buffer `outDQU` after the second pass of `evalBSpline` with
derivatives. -/
theorem blendV_dQU (W : BasisWeights K) (length offset : Nat)
    (BU DU : Nat → K) (st : (Nat → K) × (Nat → K) × (Nat → K)) (m : Nat) :
    (blendV W true length offset BU DU st).2.1 m
      = if offset ≤ m ∧ m < offset + length then
          st.2.1 m + ∑ i : Fin 4, DU (length * i.val + (m - offset)) * W.B i
        else st.2.1 m := by
  unfold blendV
  rw [foldl_snd_eq _ (fun (a : (Nat → K) × (Nat → K)) (i : Fin 4) =>
      (addLoop length offset (fun k => DU (length * i.val + k) * W.B i) a.1,
       addLoop length offset (fun k => BU (length * i.val + k) * W.D i) a.2))]
  · rw [foldl_fst_eq _ (fun a (i : Fin 4) => addLoop length offset
        (fun k => DU (length * i.val + k) * W.B i) a)]
    · simp only [foldl_addLoop_apply, Fin.sum_univ_def]
    · intro st i
      rfl
  · intro st i
    rw [foldl_snd_eq _ (fun (a : (Nat → K) × (Nat → K)) k =>
      (setAt a.1 (offset + k) (a.1 (offset + k) + DU (length * i.val + k) * W.B i),
       setAt a.2 (offset + k) (a.2 (offset + k) + BU (length * i.val + k) * W.D i)))]
    · refine Prod.ext ?_ ?_
      · rw [foldl_fst_eq _ (fun a k => setAt a (offset + k)
          (a (offset + k) + DU (length * i.val + k) * W.B i))]
        · rfl
        · intro st k
          rfl
      · rw [foldl_snd_eq _ (fun a k => setAt a (offset + k)
          (a (offset + k) + BU (length * i.val + k) * W.D i))]
        · rfl
        · intro st k
          rfl
    · intro st k
      rfl

/-- The buffer `outDQV` after the second pass of `evalBSpline` with
derivatives. -/
theorem blendV_dQV (W : BasisWeights K) (length offset : Nat)
    (BU DU : Nat → K) (st : (Nat → K) × (Nat → K) × (Nat → K)) (m : Nat) :
    (blendV W true length offset BU DU st).2.2 m
      = if offset ≤ m ∧ m < offset + length then
          st.2.2 m + ∑ i : Fin 4, BU (length * i.val + (m - offset)) * W.D i
        else st.2.2 m := by
  unfold blendV
  rw [foldl_snd_eq _ (fun (a : (Nat → K) × (Nat → K)) (i : Fin 4) =>
      (addLoop length offset (fun k => DU (length * i.val + k) * W.B i) a.1,
       addLoop length offset (fun k => BU (length * i.val + k) * W.D i) a.2))]
  · rw [foldl_snd_eq _ (fun a (i : Fin 4) => addLoop length offset
        (fun k => BU (length * i.val + k) * W.D i) a)]
    · simp only [foldl_addLoop_apply, Fin.sum_univ_def]
    · intro st i
      rfl
  · intro st i
    rw [foldl_snd_eq _ (fun (a : (Nat → K) × (Nat → K)) k =>
      (setAt a.1 (offset + k) (a.1 (offset + k) + DU (length * i.val + k) * W.B i),
       setAt a.2 (offset + k) (a.2 (offset + k) + BU (length * i.val + k) * W.D i)))]
    · refine Prod.ext ?_ ?_
      · rw [foldl_fst_eq _ (fun a k => setAt a (offset + k)
          (a (offset + k) + DU (length * i.val + k) * W.B i))]
        · rfl
        · intro st k
          rfl
      · rw [foldl_snd_eq _ (fun a k => setAt a (offset + k)
          (a (offset + k) + BU (length * i.val + k) * W.D i))]
        · rfl
        · intro st k
          rfl
    · intro st k
      rfl

/-- The two-pass sum of the evaluators is the bivariate tensor sum. -/
theorem sum_rowSum_eq (wu wv : Fin 4 → K) (vertexIndices : Nat → Nat)
    (inDesc : OsdVertexBufferDescriptor) (inQ : Nat → K) (k : Nat) :
    (∑ i : Fin 4, rowSum wu vertexIndices inDesc inQ i k * wv i)
      = ∑ i : Fin 4, ∑ j : Fin 4,
          wu i * wv j * controlValue vertexIndices inDesc inQ i j k := by
  simp only [rowSum, Finset.sum_mul]
  rw [Finset.sum_comm]
  refine Finset.sum_congr rfl (fun i _ => Finset.sum_congr rfl (fun j _ => ?_))
  have hidx : j.val + i.val * 4 = 4 * i.val + j.val := by omega
  simp only [controlValue, hidx]
  ring

/-- Scratch rows of `evalBSpline` after the first pass, read the way the
second pass reads them. -/
theorem scratch_BU_read (W : BasisWeights K) (evalDeriv : Bool) (vertexIndices : Nat → Nat)
    (inDesc : OsdVertexBufferDescriptor) (inQ : Nat → K)
    (i : Fin 4) (k : Nat) (hk : k < inDesc.length) :
    (accumulateU W evalDeriv vertexIndices inDesc inQ
        (memsetZero (fun _ => 0) 0 (inDesc.length * 4),
         memsetZero (fun _ => 0) 0 (inDesc.length * 4))).1 (inDesc.length * i.val + k)
      = rowSum W.B vertexIndices inDesc inQ i k := by
  rw [Nat.mul_comm inDesc.length i.val, accumulateU_fst _ _ _ _ _ _ _ _ hk]
  simp [memsetZero]

theorem scratch_DU_read (W : BasisWeights K) (vertexIndices : Nat → Nat)
    (inDesc : OsdVertexBufferDescriptor) (inQ : Nat → K)
    (i : Fin 4) (k : Nat) (hk : k < inDesc.length) :
    (accumulateU W true vertexIndices inDesc inQ
        (memsetZero (fun _ => 0) 0 (inDesc.length * 4),
         memsetZero (fun _ => 0) 0 (inDesc.length * 4))).2 (inDesc.length * i.val + k)
      = rowSum W.D vertexIndices inDesc inQ i k := by
  rw [Nat.mul_comm inDesc.length i.val, accumulateU_snd _ _ _ _ _ _ _ hk]
  simp [memsetZero]

/-- Position output of `evalBSpline`, whatever the (consistent) derivative
pointers are. -/
theorem evalBSpline_Q (u v : K) (vertexIndices : Nat → Nat)
    (inDesc : OsdVertexBufferDescriptor) (inQ : Nat → K)
    (outDesc : OsdVertexBufferDescriptor) (outQ : Nat → K)
    (outDQU outDQV : Option (Nat → K))
    (hcap : capacityOK inDesc outDesc) (hptr : outDQU.isSome = outDQV.isSome) :
    ∃ r, evalBSpline u v vertexIndices inDesc inQ outDesc outQ outDQU outDQV = some r ∧
      ∀ k, k < inDesc.length →
        r.Q (outDesc.offset + k)
          = ∑ i : Fin 4, ∑ j : Fin 4, (evalCubicBSpline u).B i * (evalCubicBSpline v).B j
              * controlValue vertexIndices inDesc inQ i j k := by
  have hwin : ∀ k, k < inDesc.length →
      (outDesc.offset ≤ outDesc.offset + k ∧ outDesc.offset + k < outDesc.offset + inDesc.length) :=
    fun k hk => ⟨Nat.le_add_right _ _, Nat.add_lt_add_left hk _⟩
  cases outDQU with
  | none =>
    cases outDQV with
    | some b => simp at hptr
    | none =>
      refine ⟨_, by simp only [evalBSpline, hcap, not_true_eq_false, if_false]; rfl, ?_⟩
      intro k hk
      simp only [blendV_Q, if_pos (hwin k hk), Nat.add_sub_cancel_left,
        scratch_BU_read _ _ _ _ _ _ _ hk, ← sum_rowSum_eq]
      simp [memsetZero, hk]
  | some a =>
    cases outDQV with
    | none => simp at hptr
    | some b =>
      refine ⟨_, by simp only [evalBSpline, hcap, not_true_eq_false, if_false]; rfl, ?_⟩
      intro k hk
      simp only [blendV_Q, if_pos (hwin k hk), Nat.add_sub_cancel_left,
        scratch_BU_read _ _ _ _ _ _ _ hk, ← sum_rowSum_eq]
      simp [memsetZero, hk]

/-- Derivative outputs of `evalBSpline` when both derivative buffers are
supplied. -/
theorem evalBSpline_dQ (u v : K) (vertexIndices : Nat → Nat)
    (inDesc : OsdVertexBufferDescriptor) (inQ : Nat → K)
    (outDesc : OsdVertexBufferDescriptor) (outQ dQU dQV : Nat → K)
    (hcap : capacityOK inDesc outDesc) :
    ∃ r a b, evalBSpline u v vertexIndices inDesc inQ outDesc outQ (some dQU) (some dQV) = some r ∧
      r.dQU = some a ∧ r.dQV = some b ∧
      ∀ k, k < inDesc.length →
        a (outDesc.offset + k)
          = (∑ i : Fin 4, ∑ j : Fin 4, (evalCubicBSpline u).D i * (evalCubicBSpline v).B j
              * controlValue vertexIndices inDesc inQ i j k) ∧
        b (outDesc.offset + k)
          = ∑ i : Fin 4, ∑ j : Fin 4, (evalCubicBSpline u).B i * (evalCubicBSpline v).D j
              * controlValue vertexIndices inDesc inQ i j k := by
  have hwin : ∀ k, k < inDesc.length →
      (outDesc.offset ≤ outDesc.offset + k ∧ outDesc.offset + k < outDesc.offset + inDesc.length) :=
    fun k hk => ⟨Nat.le_add_right _ _, Nat.add_lt_add_left hk _⟩
  refine ⟨_, _, _, by simp only [evalBSpline, hcap, not_true_eq_false, if_false]; rfl,
    rfl, rfl, ?_⟩
  intro k hk
  constructor
  · simp only [Option.isSome_some, Bool.or_self, blendV_dQU, if_pos (hwin k hk),
      Nat.add_sub_cancel_left, scratch_DU_read _ _ _ _ _ _ hk, ← sum_rowSum_eq]
    simp [memsetZero, hk]
  · simp only [Option.isSome_some, Bool.or_self, blendV_dQV, if_pos (hwin k hk),
      Nat.add_sub_cancel_left, scratch_BU_read _ _ _ _ _ _ _ hk, ← sum_rowSum_eq]
    simp [memsetZero, hk]

/-- The buffer `outQ` after the second pass of `evalGregory`: every channel
of the window receives the same sum over the scratch entries `BU[0..3]`. -/
theorem blendVGregory_Q (W : BasisWeights K) (evalDeriv : Bool) (length offset : Nat)
    (BU DU : Nat → K) (st : (Nat → K) × (Nat → K) × (Nat → K)) (m : Nat) :
    (blendVGregory W evalDeriv length offset BU DU st).1 m
      = if offset ≤ m ∧ m < offset + length then
          st.1 m + ∑ i : Fin 4, BU i.val * W.B i
        else st.1 m := by
  unfold blendVGregory
  rw [foldl_fst_eq _ (fun a (i : Fin 4) => addLoop length offset
      (fun _ => BU i.val * W.B i) a)]
  · simp only [foldl_addLoop_apply, Fin.sum_univ_def]
  · intro st i
    rw [foldl_fst_eq _ (fun a k => setAt a (offset + k)
      (a (offset + k) + BU i.val * W.B i))]
    · rfl
    · intro st k
      cases evalDeriv <;> rfl

/-- Position output of `evalGregory`: it is determined by the raw input
vertices read through `vertexIndices`, by `u`, `v` and by the previous
contents of `outQ`; the synthesized control points do not enter. -/
theorem evalGregory_Q [DecidableEq K] (M : LibM K) (scratch : GregoryScratch K) (u v : K)
    (vertexValenceBuffer quadOffsetBuffer : Nat → Nat) (maxValence : Nat)
    (vertexIndices : Nat → Nat)
    (inDesc : OsdVertexBufferDescriptor) (inQ : Nat → K)
    (outDesc : OsdVertexBufferDescriptor) (outQ : Nat → K)
    (outDQU outDQV : Option (Nat → K))
    (hcap : capacityOK inDesc outDesc)
    (hrb : (gregoryCorners M scratch vertexValenceBuffer maxValence vertexIndices
      inDesc inQ).rInBounds = true)
    (hptr : outDQU.isSome = outDQV.isSome) :
    ∃ r, evalGregory M scratch u v vertexValenceBuffer quadOffsetBuffer maxValence
        vertexIndices inDesc inQ outDesc outQ outDQU outDQV = some r ∧
      ∀ m, r.Q m
        = if outDesc.offset ≤ m ∧ m < outDesc.offset + inDesc.length then
            memsetZero outQ outDesc.offset outDesc.length m
              + ∑ i : Fin 4,
                  (accumulateU (univar4x4 u) (outDQU.isSome || outDQV.isSome) vertexIndices
                    inDesc inQ (memsetZero (fun _ => 0) 0 (inDesc.length * 4),
                      memsetZero (fun _ => 0) 0 (inDesc.length * 4))).1 i.val
                    * (univar4x4 v).B i
          else memsetZero outQ outDesc.offset outDesc.length m := by
  cases outDQU with
  | none =>
    cases outDQV with
    | some b => simp at hptr
    | none =>
      refine ⟨_, by simp only [evalGregory, hcap, hrb, not_true_eq_false, if_false]; rfl, ?_⟩
      intro m
      simp only [blendVGregory_Q]
  | some a =>
    cases outDQV with
    | none => simp at hptr
    | some b =>
      refine ⟨_, by simp only [evalGregory, hcap, hrb, not_true_eq_false, if_false]; rfl, ?_⟩
      intro m
      simp only [blendVGregory_Q]

/-- Entry `m` of the scratch array `BU` after the first pass, for a flat
index `m` inside the four rows. -/
theorem scratch_BU_flat (W : BasisWeights K) (evalDeriv : Bool) (vertexIndices : Nat → Nat)
    (inDesc : OsdVertexBufferDescriptor) (inQ : Nat → K)
    (i : Fin 4) (k m : Nat) (hk : k < inDesc.length) (hm : m = i.val * inDesc.length + k) :
    (accumulateU W evalDeriv vertexIndices inDesc inQ
        (memsetZero (fun _ => 0) 0 (inDesc.length * 4),
         memsetZero (fun _ => 0) 0 (inDesc.length * 4))).1 m
      = rowSum W.B vertexIndices inDesc inQ i k := by
  rw [hm, accumulateU_fst _ _ _ _ _ _ _ _ hk]
  simp [memsetZero]

/-- The `univar4x4` blend weights at `0` and at `1`. -/
theorem univar4x4_B_at_ends :
    (univar4x4 (0 : K)).B = ![1, 0, 0, 0] ∧ (univar4x4 (1 : K)).B = ![0, 0, 0, 1] := by
  constructor <;> simp [univar4x4]

/-- With the `univar4x4` weights at `u = 0`, a row of the first pass reads
the single vertex `vertexIndices[i]`. -/
theorem rowSum_univar_zero (vertexIndices : Nat → Nat) (inDesc : OsdVertexBufferDescriptor)
    (inQ : Nat → K) (i : Fin 4) (k : Nat) :
    rowSum (univar4x4 (0 : K)).B vertexIndices inDesc inQ i k
      = inQ (inDesc.offset + vertexIndices i.val * inDesc.stride + k) := by
  simp [rowSum, univar4x4_B_at_ends.1, Fin.sum_univ_four]

/-- With the `univar4x4` weights at `u = 1`, a row of the first pass reads
the single vertex `vertexIndices[i + 12]`. -/
theorem rowSum_univar_one (vertexIndices : Nat → Nat) (inDesc : OsdVertexBufferDescriptor)
    (inQ : Nat → K) (i : Fin 4) (k : Nat) :
    rowSum (univar4x4 (1 : K)).B vertexIndices inDesc inQ i k
      = inQ (inDesc.offset + vertexIndices (i.val + 12) * inDesc.stride + k) := by
  have h3 : ((3 : Fin 4) : Nat) = 3 := rfl
  simp [rowSum, univar4x4_B_at_ends.2, Fin.sum_univ_four, h3]

/-- Position output of `evalGregory` at `v = 0` (flat scratch entry 0) and
at `v = 1` (flat scratch entry 3), in a channel that the clearing covers. -/
theorem evalGregory_Q_at_ends [DecidableEq K] (M : LibM K) (scratch : GregoryScratch K) (u : K)
    (vertexValenceBuffer quadOffsetBuffer : Nat → Nat) (maxValence : Nat)
    (vertexIndices : Nat → Nat)
    (inDesc : OsdVertexBufferDescriptor) (inQ : Nat → K)
    (outDesc : OsdVertexBufferDescriptor) (outQ : Nat → K)
    (hcap : capacityOK inDesc outDesc)
    (hrb : (gregoryCorners M scratch vertexValenceBuffer maxValence vertexIndices
      inDesc inQ).rInBounds = true)
    (k : Nat) (hk : k < inDesc.length) (hk' : k < outDesc.length) :
    (evalGregory M scratch u 0 vertexValenceBuffer quadOffsetBuffer maxValence
        vertexIndices inDesc inQ outDesc outQ none none).map (fun r => r.Q (outDesc.offset + k))
      = some ((accumulateU (univar4x4 u) false vertexIndices
          inDesc inQ (memsetZero (fun _ => 0) 0 (inDesc.length * 4),
            memsetZero (fun _ => 0) 0 (inDesc.length * 4))).1 0) ∧
    (evalGregory M scratch u 1 vertexValenceBuffer quadOffsetBuffer maxValence
        vertexIndices inDesc inQ outDesc outQ none none).map (fun r => r.Q (outDesc.offset + k))
      = some ((accumulateU (univar4x4 u) false vertexIndices
          inDesc inQ (memsetZero (fun _ => 0) 0 (inDesc.length * 4),
            memsetZero (fun _ => 0) 0 (inDesc.length * 4))).1 3) := by
  have hwin : outDesc.offset ≤ outDesc.offset + k ∧
      outDesc.offset + k < outDesc.offset + inDesc.length :=
    ⟨Nat.le_add_right _ _, Nat.add_lt_add_left hk _⟩
  have hwin' : outDesc.offset ≤ outDesc.offset + k ∧
      outDesc.offset + k < outDesc.offset + outDesc.length :=
    ⟨Nat.le_add_right _ _, Nat.add_lt_add_left hk' _⟩
  have h3 : ((3 : Fin 4) : Nat) = 3 := rfl
  constructor
  · obtain ⟨r, hr, hQ⟩ := evalGregory_Q M scratch u 0 vertexValenceBuffer quadOffsetBuffer
      maxValence vertexIndices inDesc inQ outDesc outQ none none hcap hrb rfl
    rw [hr, Option.map_some', hQ, if_pos hwin, univar4x4_B_at_ends.1]
    simp [memsetZero, hwin', Fin.sum_univ_four]
  · obtain ⟨r, hr, hQ⟩ := evalGregory_Q M scratch u 1 vertexValenceBuffer quadOffsetBuffer
      maxValence vertexIndices inDesc inQ outDesc outQ none none hcap hrb rfl
    rw [hr, Option.map_some', hQ, if_pos hwin, univar4x4_B_at_ends.2]
    simp [memsetZero, hwin', Fin.sum_univ_four, h3]

end LoopLemmas

/-! ## Theorems -/

section BasisTheorems

variable {K : Type} [Field K] [CharZero K]

/-- C2: for every `u` the four blend weights of `evalCubicBSpline u` sum to
exactly `1`, and so do the four blend weights of `univar4x4 u`. -/
theorem partition_of_unity (u : K) :
    (∑ i : Fin 4, (evalCubicBSpline u).B i) = 1 ∧
    (∑ i : Fin 4, (univar4x4 u).B i) = 1 := by
  constructor
  · simp only [evalCubicBSpline, Fin.sum_univ_four]
    simp
    field_simp
    ring
  · simp only [univar4x4, Fin.sum_univ_four]
    simp
    ring

/-- Witness of C2: both sums at `u = 1/2` over the rationals. -/
theorem partition_of_unity_witness :
    (∑ i : Fin 4, (evalCubicBSpline (1 / 2 : ℚ)).B i) = 1 ∧
    (∑ i : Fin 4, (univar4x4 (1 / 2 : ℚ)).B i) = 1 :=
  partition_of_unity (1 / 2 : ℚ)

end BasisTheorems

/-- Derivative of a real cubic written in the monomial basis. -/
theorem hasDerivAt_cubic (a b c d u : ℝ) :
    HasDerivAt (fun x : ℝ => a + b * x + c * x ^ 2 + d * x ^ 3)
      (b + 2 * c * u + 3 * d * u ^ 2) u := by
  have h1 : HasDerivAt (fun x : ℝ => x) 1 u := hasDerivAt_id u
  have h2 : HasDerivAt (fun x : ℝ => x ^ 2) (2 * u) u := by
    simpa using h1.pow 2
  have h3 : HasDerivAt (fun x : ℝ => x ^ 3) (3 * u ^ 2) u := by
    simpa using h1.pow 3
  have h := (((h1.const_mul b).const_add a).add (h2.const_mul c)).add (h3.const_mul d)
  convert h using 1
  ring

/-- A function that agrees everywhere with a cubic has the cubic's derivative. -/
theorem hasDerivAt_of_cubic {f : ℝ → ℝ} {f' u : ℝ} (a b c d : ℝ)
    (hf : ∀ x, f x = a + b * x + c * x ^ 2 + d * x ^ 3)
    (hd : f' = b + 2 * c * u + 3 * d * u ^ 2) : HasDerivAt f f' u := by
  have hfun : f = fun x : ℝ => a + b * x + c * x ^ 2 + d * x ^ 3 := funext hf
  rw [hfun, hd]
  exact hasDerivAt_cubic a b c d u

/-- C3: at every real `u`, each derivative weight `BU[i]` of
`evalCubicBSpline` is the derivative with respect to `u` of the blend weight
`B[i]`. -/
theorem evalCubicBSpline_deriv (u : ℝ) (i : Fin 4) :
    HasDerivAt (fun x : ℝ => (evalCubicBSpline x).B i) ((evalCubicBSpline u).D i) u := by
  fin_cases i
  · refine hasDerivAt_of_cubic (1 / 6) (-1 / 2) (1 / 2) (-1 / 6) (fun x => ?_) ?_
    · simp [evalCubicBSpline]; ring
    · simp [evalCubicBSpline]; ring
  · refine hasDerivAt_of_cubic (2 / 3) 0 (-1) (1 / 2) (fun x => ?_) ?_
    · simp [evalCubicBSpline]; ring
    · simp [evalCubicBSpline]; ring
  · refine hasDerivAt_of_cubic (1 / 6) (1 / 2) (1 / 2) (-1 / 2) (fun x => ?_) ?_
    · simp [evalCubicBSpline]; ring
    · simp [evalCubicBSpline]; ring
  · refine hasDerivAt_of_cubic 0 0 0 (1 / 6) (fun x => ?_) ?_
    · simp [evalCubicBSpline]; ring
    · simp [evalCubicBSpline]; ring

/-- C4: the derivative weights of `univar4x4` are one third of the derivatives
of its blend weights: at every real `u` the derivative of `B[i]` is
`3 * D[i]`; at `u = 0` the weight `B[0]` has derivative `-3` whereas the stored
derivative weight is `D[0] = -1`, and `-1` is not a derivative of `B[0]`
there. -/
theorem univar4x4_deriv_off_by_three :
    (∀ (u : ℝ) (i : Fin 4),
      HasDerivAt (fun x : ℝ => (univar4x4 x).B i) (3 * (univar4x4 u).D i) u) ∧
    (univar4x4 (0 : ℝ)).D 0 = -1 ∧
    HasDerivAt (fun x : ℝ => (univar4x4 x).B 0) (-3) 0 ∧
    ¬ HasDerivAt (fun x : ℝ => (univar4x4 x).B 0) ((univar4x4 (0 : ℝ)).D 0) 0 := by
  have hall : ∀ (u : ℝ) (i : Fin 4),
      HasDerivAt (fun x : ℝ => (univar4x4 x).B i) (3 * (univar4x4 u).D i) u := by
    intro u i
    fin_cases i
    · refine hasDerivAt_of_cubic 1 (-3) 3 (-1) (fun x => ?_) ?_
      · simp [univar4x4]; ring
      · simp [univar4x4]; ring
    · refine hasDerivAt_of_cubic 0 3 (-6) 3 (fun x => ?_) ?_
      · simp [univar4x4]; ring
      · simp [univar4x4]; ring
    · refine hasDerivAt_of_cubic 0 0 3 (-3) (fun x => ?_) ?_
      · simp [univar4x4]; ring
      · simp [univar4x4]; ring
    · refine hasDerivAt_of_cubic 0 0 0 1 (fun x => ?_) ?_
      · simp [univar4x4]; ring
      · simp [univar4x4]; ring
  have hD : (univar4x4 (0 : ℝ)).D 0 = -1 := by simp [univar4x4]
  have h3 : HasDerivAt (fun x : ℝ => (univar4x4 x).B 0) (-3) 0 := by
    have h := hall 0 0
    rw [hD] at h
    norm_num at h
    exact h
  refine ⟨hall, hD, h3, ?_⟩
  intro h
  rw [hD] at h
  have := h.unique h3
  norm_num at this

section RegularPatch

variable {K : Type} [Field K]

/-- C1: under the capacity precondition (and with the two derivative pointers
both null or both non-null), for every channel `k < inDesc.length`,
`evalBSpline` returns and writes
`outQ[outDesc.offset + k] = Σ i j, Bu[i] * Bv[j] * inQ[inDesc.offset + vertexIndices[4*i+j] * inDesc.stride + k]`
with `Bu`, `Bv` the `evalCubicBSpline` weights at `u` and `v`. -/
theorem evalBSpline_tensor_sum (u v : K) (vertexIndices : Nat → Nat)
    (inDesc : OsdVertexBufferDescriptor) (inQ : Nat → K)
    (outDesc : OsdVertexBufferDescriptor) (outQ : Nat → K)
    (outDQU outDQV : Option (Nat → K))
    (hcap : capacityOK inDesc outDesc) (hptr : outDQU.isSome = outDQV.isSome)
    (k : Nat) (hk : k < inDesc.length) :
    (evalBSpline u v vertexIndices inDesc inQ outDesc outQ outDQU outDQV).map
        (fun r => r.Q (outDesc.offset + k))
      = some (∑ i : Fin 4, ∑ j : Fin 4,
          (evalCubicBSpline u).B i * (evalCubicBSpline v).B j
            * inQ (inDesc.offset + vertexIndices (4 * i.val + j.val) * inDesc.stride + k)) := by
  obtain ⟨r, hr, hQ⟩ :=
    evalBSpline_Q u v vertexIndices inDesc inQ outDesc outQ outDQU outDQV hcap hptr
  rw [hr, Option.map_some', hQ k hk]
  rfl

/-- C5: when both derivative buffers are supplied, under the capacity
precondition and for every channel `k < inDesc.length`, `evalBSpline` writes
`outDQU[outDesc.offset + k] = Σ i j, DBu[i] * Bv[j] * V(i,j)[k]` and
`outDQV[outDesc.offset + k] = Σ i j, Bu[i] * DBv[j] * V(i,j)[k]`, where
`V(i,j)[k] = inQ[inDesc.offset + vertexIndices[4*i+j] * inDesc.stride + k]`. -/
theorem evalBSpline_derivative_sums (u v : K) (vertexIndices : Nat → Nat)
    (inDesc : OsdVertexBufferDescriptor) (inQ : Nat → K)
    (outDesc : OsdVertexBufferDescriptor) (outQ dQU dQV : Nat → K)
    (hcap : capacityOK inDesc outDesc) (k : Nat) (hk : k < inDesc.length) :
    ((evalBSpline u v vertexIndices inDesc inQ outDesc outQ (some dQU) (some dQV)).bind
        (fun r => r.dQU.map (fun a => a (outDesc.offset + k)))
      = some (∑ i : Fin 4, ∑ j : Fin 4,
          (evalCubicBSpline u).D i * (evalCubicBSpline v).B j
            * inQ (inDesc.offset + vertexIndices (4 * i.val + j.val) * inDesc.stride + k))) ∧
    ((evalBSpline u v vertexIndices inDesc inQ outDesc outQ (some dQU) (some dQV)).bind
        (fun r => r.dQV.map (fun b => b (outDesc.offset + k)))
      = some (∑ i : Fin 4, ∑ j : Fin 4,
          (evalCubicBSpline u).B i * (evalCubicBSpline v).D j
            * inQ (inDesc.offset + vertexIndices (4 * i.val + j.val) * inDesc.stride + k))) := by
  obtain ⟨r, a, b, hr, ha, hb, hab⟩ :=
    evalBSpline_dQ u v vertexIndices inDesc inQ outDesc outQ dQU dQV hcap
  rw [hr, Option.some_bind, Option.some_bind, ha, hb, Option.map_some', Option.map_some',
    (hab k hk).1, (hab k hk).2]
  exact ⟨rfl, rfl⟩

/-- C6: at `(u,v) = (0,0)`, for every control grid and channel `k`,
`evalBSpline` returns the top-left 3x3 block of control vertices weighted by
the stencil `[1 4 1; 4 16 4; 1 4 1] / 36`; the fourth row and the fourth
column do not contribute. -/
theorem evalBSpline_corner_stencil [CharZero K] (vertexIndices : Nat → Nat)
    (inDesc : OsdVertexBufferDescriptor) (inQ : Nat → K)
    (outDesc : OsdVertexBufferDescriptor) (outQ : Nat → K)
    (outDQU outDQV : Option (Nat → K))
    (hcap : capacityOK inDesc outDesc) (hptr : outDQU.isSome = outDQV.isSome)
    (k : Nat) (hk : k < inDesc.length) :
    (evalBSpline 0 0 vertexIndices inDesc inQ outDesc outQ outDQU outDQV).map
        (fun r => r.Q (outDesc.offset + k))
      = some (1 / 36 *
          (inQ (inDesc.offset + vertexIndices 0 * inDesc.stride + k)
            + 4 * inQ (inDesc.offset + vertexIndices 1 * inDesc.stride + k)
            + inQ (inDesc.offset + vertexIndices 2 * inDesc.stride + k)
            + 4 * inQ (inDesc.offset + vertexIndices 4 * inDesc.stride + k)
            + 16 * inQ (inDesc.offset + vertexIndices 5 * inDesc.stride + k)
            + 4 * inQ (inDesc.offset + vertexIndices 6 * inDesc.stride + k)
            + inQ (inDesc.offset + vertexIndices 8 * inDesc.stride + k)
            + 4 * inQ (inDesc.offset + vertexIndices 9 * inDesc.stride + k)
            + inQ (inDesc.offset + vertexIndices 10 * inDesc.stride + k))) := by
  obtain ⟨r, hr, hQ⟩ :=
    evalBSpline_Q 0 0 vertexIndices inDesc inQ outDesc outQ outDQU outDQV hcap hptr
  rw [hr, Option.map_some', hQ k hk]
  simp only [Fin.sum_univ_four, controlValue, evalCubicBSpline]
  simp
  ring

/-- Witness of C1: the lattice positions with three channels, evaluated at
`(1/2, 1/4)`, channel 1. -/
theorem evalBSpline_tensor_sum_witness :
    capacityOK desc3 desc3 ∧
    (none : Option (Nat → ℚ)).isSome = (none : Option (Nat → ℚ)).isSome ∧
    1 < desc3.length ∧
    (evalBSpline (1 / 2 : ℚ) (1 / 4) latticeIndices desc3 positionQ desc3 (fun _ => 0)
        none none).map (fun r => r.Q (desc3.offset + 1))
      = some (∑ i : Fin 4, ∑ j : Fin 4,
          (evalCubicBSpline (1 / 2 : ℚ)).B i * (evalCubicBSpline (1 / 4 : ℚ)).B j
            * positionQ (desc3.offset + latticeIndices (4 * i.val + j.val) * desc3.stride + 1)) :=
  ⟨by decide, rfl, by decide,
    evalBSpline_tensor_sum (1 / 2 : ℚ) (1 / 4) latticeIndices desc3 positionQ desc3 (fun _ => 0)
      none none (by decide) rfl 1 (by decide)⟩

/-- Witness of C5: the lattice positions with three channels and both
derivative buffers supplied, evaluated at `(1/2, 1/4)`, channel 1. -/
theorem evalBSpline_derivative_sums_witness :
    capacityOK desc3 desc3 ∧ 1 < desc3.length ∧
    ((evalBSpline (1 / 2 : ℚ) (1 / 4) latticeIndices desc3 positionQ desc3 (fun _ => 0)
        (some (fun _ => 0)) (some (fun _ => 0))).bind
        (fun r => r.dQU.map (fun a => a (desc3.offset + 1)))
      = some (∑ i : Fin 4, ∑ j : Fin 4,
          (evalCubicBSpline (1 / 2 : ℚ)).D i * (evalCubicBSpline (1 / 4 : ℚ)).B j
            * positionQ (desc3.offset + latticeIndices (4 * i.val + j.val) * desc3.stride + 1))) ∧
    ((evalBSpline (1 / 2 : ℚ) (1 / 4) latticeIndices desc3 positionQ desc3 (fun _ => 0)
        (some (fun _ => 0)) (some (fun _ => 0))).bind
        (fun r => r.dQV.map (fun b => b (desc3.offset + 1)))
      = some (∑ i : Fin 4, ∑ j : Fin 4,
          (evalCubicBSpline (1 / 2 : ℚ)).B i * (evalCubicBSpline (1 / 4 : ℚ)).D j
            * positionQ (desc3.offset + latticeIndices (4 * i.val + j.val) * desc3.stride + 1))) :=
  ⟨by decide, by decide,
    evalBSpline_derivative_sums (1 / 2 : ℚ) (1 / 4) latticeIndices desc3 positionQ desc3
      (fun _ => 0) (fun _ => 0) (fun _ => 0) (by decide) 1 (by decide)⟩

/-- Witness of C6: control vertices at the integer lattice positions, channel 0
(the column coordinate). -/
theorem evalBSpline_corner_stencil_witness :
    capacityOK desc3 desc3 ∧
    (none : Option (Nat → ℚ)).isSome = (none : Option (Nat → ℚ)).isSome ∧
    0 < desc3.length ∧
    (evalBSpline (0 : ℚ) 0 latticeIndices desc3 positionQ desc3 (fun _ => 0)
        none none).map (fun r => r.Q (desc3.offset + 0))
      = some (1 / 36 *
          (positionQ (desc3.offset + latticeIndices 0 * desc3.stride + 0)
            + 4 * positionQ (desc3.offset + latticeIndices 1 * desc3.stride + 0)
            + positionQ (desc3.offset + latticeIndices 2 * desc3.stride + 0)
            + 4 * positionQ (desc3.offset + latticeIndices 4 * desc3.stride + 0)
            + 16 * positionQ (desc3.offset + latticeIndices 5 * desc3.stride + 0)
            + 4 * positionQ (desc3.offset + latticeIndices 6 * desc3.stride + 0)
            + positionQ (desc3.offset + latticeIndices 8 * desc3.stride + 0)
            + 4 * positionQ (desc3.offset + latticeIndices 9 * desc3.stride + 0)
            + positionQ (desc3.offset + latticeIndices 10 * desc3.stride + 0))) :=
  ⟨by decide, rfl, by decide,
    evalBSpline_corner_stencil latticeIndices desc3 positionQ desc3 (fun _ => 0)
      none none (by decide) rfl 0 (by decide)⟩

end RegularPatch

section GregoryParts

variable {K : Type} [Field K]

/-- The body of `tessStep` written with the named parts `quadStart`,
`quadPrev`, `quadPrevP` and `cornerE`. -/
theorem tessStep_unfold (M : LibM K) (c : CornerState K) (quadOffsetBuffer : Nat → Nat)
    (maxValence length : Nat) (st : TessState K) (vid : Fin 4) :
    tessStep M c quadOffsetBuffer maxValence length st vid
      = (List.range length).foldl (fun (st : TessState K) k =>
          { st with
            Fp := setAt st.Fp (vid.val * length + k)
              ((csf M (c.valences ⟨(vid.val + 1) % 4, Nat.mod_lt _ (by decide)⟩ - 3) 2
                    * c.opos (vid.val * length + k)
                  + (3 - 2 * csf M (c.valences vid - 3) 2
                      - csf M (c.valences ⟨(vid.val + 1) % 4, Nat.mod_lt _ (by decide)⟩ - 3) 2)
                    * st.Ep (vid.val * length + k)
                  + 2 * csf M (c.valences vid - 3) 2
                    * cornerE M c length ⟨(vid.val + 1) % 4, Nat.mod_lt _ (by decide)⟩
                        (quadPrevP (quadOffsetBuffer ((vid.val + 1) % 4))) k
                  + c.r (vid.val * maxValence * length
                      + (quadStart (quadOffsetBuffer vid.val) * length + k))) / 3)
            Fm := setAt st.Fm (vid.val * length + k)
              ((csf M (c.valences ⟨(vid.val + 3) % 4, Nat.mod_lt _ (by decide)⟩ - 3) 2
                    * c.opos (vid.val * length + k)
                  + (3 - 2 * M.cosf (2 * M.pi / (c.valences vid : K))
                      - M.cosf (2 * M.pi
                          / (c.valences ⟨(vid.val + 3) % 4, Nat.mod_lt _ (by decide)⟩ : K)))
                    * st.Em (vid.val * length + k)
                  + 2 * csf M (c.valences vid - 3) 2
                    * cornerE M c length ⟨(vid.val + 3) % 4, Nat.mod_lt _ (by decide)⟩
                        (quadStart (quadOffsetBuffer ((vid.val + 3) % 4))) k
                  - c.r (vid.val * maxValence * length
                      + (quadPrev (quadOffsetBuffer vid.val) * length + k))) / 3) })
          ((List.range length).foldl (fun (st : TessState K) k =>
            { st with
              Ep := setAt st.Ep (vid.val * length + k)
                (cornerE M c length vid (quadStart (quadOffsetBuffer vid.val)) k)
              Em := setAt st.Em (vid.val * length + k)
                (cornerE M c length vid (quadPrev (quadOffsetBuffer vid.val)) k) }) st) :=
  rfl

/-- The body of `gregoryGrid` written with the named denominators `d11`,
`d12`, `d21`, `d22`. -/
theorem gregoryGrid_unfold [DecidableEq K] (u v : K) (c : CornerState K) (t : TessState K)
    (length : Nat) :
    gregoryGrid u v c t length
      = memcpyFrom (memcpyFrom (memcpyFrom (memcpyFrom (memcpyFrom (memcpyFrom
          (memcpyFrom (memcpyFrom (memcpyFrom (memcpyFrom (memcpyFrom (memcpyFrom
            ((List.range length).foldl (fun q k =>
              setAt (setAt (setAt (setAt q
                (5 * length + k)
                  ((u * gregoryPoint c t length 3 k + v * gregoryPoint c t length 4 k)
                    / d11 u v))
                (6 * length + k)
                  (((1 - u) * gregoryPoint c t length 9 k + v * gregoryPoint c t length 8 k)
                    / d12 u v))
                (9 * length + k)
                  ((u * gregoryPoint c t length 19 k + (1 - v) * gregoryPoint c t length 18 k)
                    / d21 u v))
                (10 * length + k)
                  (((1 - u) * gregoryPoint c t length 13 k
                      + (1 - v) * gregoryPoint c t length 14 k)
                    / d22 u v)) (fun _ => 0))
            (0 * length) (gregoryPoint c t length 0) 0 length)
            (1 * length) (gregoryPoint c t length 1) 0 length)
            (2 * length) (gregoryPoint c t length 7) 0 length)
            (3 * length) (gregoryPoint c t length 5) 0 length)
            (4 * length) (gregoryPoint c t length 2) 0 length)
            (7 * length) (gregoryPoint c t length 6) 0 length)
            (8 * length) (gregoryPoint c t length 16) 0 length)
            (11 * length) (gregoryPoint c t length 12) 0 length)
            (12 * length) (gregoryPoint c t length 15) 0 length)
            (13 * length) (gregoryPoint c t length 17) 0 length)
            (14 * length) (gregoryPoint c t length 11) 0 length)
            (15 * length) (gregoryPoint c t length 10) 0 length :=
  rfl

/-- The masks of the quad-offset decode as remainders and quotients. -/
theorem quad_masks (w : Nat) :
    quadStart w = w % 256 ∧ quadPrev w = w / 256 % 256 ∧ quadPrevP w = w % 256 := by
  have hlow : ∀ x : Nat, x &&& 255 = x % 256 := fun x =>
    Nat.and_pow_two_sub_one_eq_mod x 8
  refine ⟨hlow w, ?_, hlow w⟩
  have hdiv : ∀ (n a b : Nat), (a &&& b) / 2 ^ n = a / 2 ^ n &&& b / 2 ^ n := by
    intro n
    induction n with
    | zero => intro a b; simp
    | succ n ih =>
      intro a b
      rw [Nat.pow_succ, ← Nat.div_div_eq_div_mul, ← Nat.div_div_eq_div_mul,
        ← Nat.div_div_eq_div_mul, ih, Nat.and_div_two]
  have h := hdiv 8 w 0xff00
  have h255 : (0xff00 : Nat) / 2 ^ 8 = 255 := by norm_num
  have h256 : (2 : Nat) ^ 8 = 256 := by norm_num
  rw [h255, hlow, h256] at h
  exact h

/-- C13: for every 32-bit entry `w`, `start` is the low byte `w mod 256` and
`prev` is the next byte `(w / 256) mod 256` (bits 16 and above are ignored), so
the packed word `start + 256 * prev` with both fields in `0..255` decodes to
`(start, prev)`. -/
theorem quadOffset_decode (w : Nat) (hw : w < 2 ^ 32) :
    quadStart w = w % 256 ∧ quadPrev w = w / 256 % 256 ∧
    ∀ start prev : Nat, start < 256 → prev < 256 →
      quadStart (start + 256 * prev) = start ∧ quadPrev (start + 256 * prev) = prev := by
  have _ := hw
  refine ⟨(quad_masks w).1, (quad_masks w).2.1, ?_⟩
  intro start prev hs hp
  rw [(quad_masks _).1, (quad_masks _).2.1]
  constructor <;> omega

/-- Witness of C13: the entry `513 = 1 + 256 * 2`. -/
theorem quadOffset_decode_witness :
    513 < 2 ^ 32 ∧
    (quadStart 513 = 513 % 256 ∧ quadPrev 513 = 513 / 256 % 256 ∧
      ∀ start prev : Nat, start < 256 → prev < 256 →
        quadStart (start + 256 * prev) = start ∧ quadPrev (start + 256 * prev) = prev) :=
  ⟨by norm_num, quadOffset_decode 513 (by norm_num)⟩

omit [Field K] in
/-- A `memcpy` leaves the entries outside its destination window unchanged. -/
theorem memcpyFrom_outside (dst : Nat → K) (dbase : Nat) (src : Nat → K) (sbase n m : Nat)
    (h : ¬ (dbase ≤ m ∧ m < dbase + n)) : memcpyFrom dst dbase src sbase n m = dst m := by
  unfold memcpyFrom
  rw [if_neg h]

omit [Field K] in
/-- The four interior slots after the first `n` iterations of the loop of
lines 354-359. -/
theorem interior_loop (L : Nat) (g5 g6 g9 g10 : Nat → K) (q0 : Nat → K) (n : Nat) (hn : n ≤ L) :
    ∀ k, k < n →
      ((List.range n).foldl (fun q k =>
          setAt (setAt (setAt (setAt q (5 * L + k) (g5 k)) (6 * L + k) (g6 k))
            (9 * L + k) (g9 k)) (10 * L + k) (g10 k)) q0) (5 * L + k) = g5 k ∧
      ((List.range n).foldl (fun q k =>
          setAt (setAt (setAt (setAt q (5 * L + k) (g5 k)) (6 * L + k) (g6 k))
            (9 * L + k) (g9 k)) (10 * L + k) (g10 k)) q0) (6 * L + k) = g6 k ∧
      ((List.range n).foldl (fun q k =>
          setAt (setAt (setAt (setAt q (5 * L + k) (g5 k)) (6 * L + k) (g6 k))
            (9 * L + k) (g9 k)) (10 * L + k) (g10 k)) q0) (9 * L + k) = g9 k ∧
      ((List.range n).foldl (fun q k =>
          setAt (setAt (setAt (setAt q (5 * L + k) (g5 k)) (6 * L + k) (g6 k))
            (9 * L + k) (g9 k)) (10 * L + k) (g10 k)) q0) (10 * L + k) = g10 k := by
  induction n with
  | zero => intro k hk; omega
  | succ n ih =>
    intro k hk
    have ih' := ih (by omega)
    rw [List.range_succ, List.foldl_append]
    simp only [List.foldl_cons, List.foldl_nil]
    by_cases hkn : k = n
    · subst hkn
      have e1 : ¬ (5 * L + k = 6 * L + k) := by omega
      have e2 : ¬ (5 * L + k = 9 * L + k) := by omega
      have e3 : ¬ (5 * L + k = 10 * L + k) := by omega
      have e4 : ¬ (6 * L + k = 9 * L + k) := by omega
      have e5 : ¬ (6 * L + k = 10 * L + k) := by omega
      have e6 : ¬ (9 * L + k = 10 * L + k) := by omega
      simp [setAt, e1, e2, e3, e4, e5, e6]
    · have hk' : k < n := by omega
      obtain ⟨h5, h6, h9, h10⟩ := ih' k hk'
      have a1 : ¬ (5 * L + k = 5 * L + n) := by omega
      have a2 : ¬ (5 * L + k = 6 * L + n) := by omega
      have a3 : ¬ (5 * L + k = 9 * L + n) := by omega
      have a4 : ¬ (5 * L + k = 10 * L + n) := by omega
      have b1 : ¬ (6 * L + k = 5 * L + n) := by omega
      have b2 : ¬ (6 * L + k = 6 * L + n) := by omega
      have b3 : ¬ (6 * L + k = 9 * L + n) := by omega
      have b4 : ¬ (6 * L + k = 10 * L + n) := by omega
      have c1 : ¬ (9 * L + k = 5 * L + n) := by omega
      have c2 : ¬ (9 * L + k = 6 * L + n) := by omega
      have c3 : ¬ (9 * L + k = 9 * L + n) := by omega
      have c4 : ¬ (9 * L + k = 10 * L + n) := by omega
      have d1 : ¬ (10 * L + k = 5 * L + n) := by omega
      have d2 : ¬ (10 * L + k = 6 * L + n) := by omega
      have d3 : ¬ (10 * L + k = 9 * L + n) := by omega
      have d4 : ¬ (10 * L + k = 10 * L + n) := by omega
      refine ⟨?_, ?_, ?_, ?_⟩
      · simp only [setAt, if_neg a1, if_neg a2, if_neg a3, if_neg a4]; exact h5
      · simp only [setAt, if_neg b1, if_neg b2, if_neg b3, if_neg b4]; exact h6
      · simp only [setAt, if_neg c1, if_neg c2, if_neg c3, if_neg c4]; exact h9
      · simp only [setAt, if_neg d1, if_neg d2, if_neg d3, if_neg d4]; exact h10

/-- The four interior slots of the grid `q`: each is the blend of two `F`
points divided by the clamped denominator of its corner. -/
theorem gregoryGrid_interior [DecidableEq K] (u v : K) (c : CornerState K) (t : TessState K)
    (length k : Nat) (hk : k < length) :
    gregoryGrid u v c t length (5 * length + k)
      = (u * gregoryPoint c t length 3 k + v * gregoryPoint c t length 4 k) / d11 u v ∧
    gregoryGrid u v c t length (6 * length + k)
      = ((1 - u) * gregoryPoint c t length 9 k + v * gregoryPoint c t length 8 k) / d12 u v ∧
    gregoryGrid u v c t length (9 * length + k)
      = (u * gregoryPoint c t length 19 k + (1 - v) * gregoryPoint c t length 18 k) / d21 u v ∧
    gregoryGrid u v c t length (10 * length + k)
      = ((1 - u) * gregoryPoint c t length 13 k + (1 - v) * gregoryPoint c t length 14 k)
          / d22 u v := by
  have h := interior_loop length
    (fun k => (u * gregoryPoint c t length 3 k + v * gregoryPoint c t length 4 k) / d11 u v)
    (fun k => ((1 - u) * gregoryPoint c t length 9 k + v * gregoryPoint c t length 8 k)
      / d12 u v)
    (fun k => (u * gregoryPoint c t length 19 k + (1 - v) * gregoryPoint c t length 18 k)
      / d21 u v)
    (fun k => ((1 - u) * gregoryPoint c t length 13 k + (1 - v) * gregoryPoint c t length 14 k)
      / d22 u v)
    (fun _ => 0) length (Nat.le_refl _) k hk
  rw [gregoryGrid_unfold]
  refine ⟨?_, ?_, ?_, ?_⟩
  · iterate 12 rw [memcpyFrom_outside _ _ _ _ _ _ (by omega)]
    exact h.1
  · iterate 12 rw [memcpyFrom_outside _ _ _ _ _ _ (by omega)]
    exact h.2.1
  · iterate 12 rw [memcpyFrom_outside _ _ _ _ _ _ (by omega)]
    exact h.2.2.1
  · iterate 12 rw [memcpyFrom_outside _ _ _ _ _ _ (by omega)]
    exact h.2.2.2

/-- C15: for every `u` and `v`, each of the four denominators `d11`, `d12`,
`d21`, `d22` is nonzero; it is the sum `u+v`, `(1-u)+v`, `u+(1-v)`,
`(1-u)+(1-v)` when that sum is nonzero and `1` otherwise; and the four
interior slots of the grid `q` are the quotients by these denominators, so
none of the four divisions divides by zero. -/
theorem denominators_nonzero [DecidableEq K] (u v : K) :
    (d11 u v ≠ 0 ∧ d11 u v = if u + v = 0 then 1 else u + v) ∧
    (d12 u v ≠ 0 ∧ d12 u v = if (1 - u) + v = 0 then 1 else (1 - u) + v) ∧
    (d21 u v ≠ 0 ∧ d21 u v = if u + (1 - v) = 0 then 1 else u + (1 - v)) ∧
    (d22 u v ≠ 0 ∧ d22 u v = if (1 - u) + (1 - v) = 0 then 1 else (1 - u) + (1 - v)) ∧
    ∀ (c : CornerState K) (t : TessState K) (length k : Nat), k < length →
      gregoryGrid u v c t length (5 * length + k)
        = (u * gregoryPoint c t length 3 k + v * gregoryPoint c t length 4 k) / d11 u v ∧
      gregoryGrid u v c t length (6 * length + k)
        = ((1 - u) * gregoryPoint c t length 9 k + v * gregoryPoint c t length 8 k)
            / d12 u v ∧
      gregoryGrid u v c t length (9 * length + k)
        = (u * gregoryPoint c t length 19 k + (1 - v) * gregoryPoint c t length 18 k)
            / d21 u v ∧
      gregoryGrid u v c t length (10 * length + k)
        = ((1 - u) * gregoryPoint c t length 13 k + (1 - v) * gregoryPoint c t length 14 k)
            / d22 u v := by
  have key : ∀ x : K, (if x = 0 then (1 : K) else x) ≠ 0 := by
    intro x
    by_cases hx : x = 0
    · rw [if_pos hx]; exact one_ne_zero
    · rw [if_neg hx]; exact hx
  exact ⟨⟨key _, rfl⟩, ⟨key _, rfl⟩, ⟨key _, rfl⟩, ⟨key _, rfl⟩,
    fun c t length k hk => gregoryGrid_interior u v c t length k hk⟩

/-- C18: for every `u`, the blend weights of `evalCubicBSpline` are the
uniform cubic B-spline basis functions `(1-u)^3/6`, `(3u^3 - 6u^2 + 4)/6`,
`(-3u^3 + 3u^2 + 3u + 1)/6` and `u^3/6`. -/
theorem evalCubicBSpline_closed_form [CharZero K] (u : K) :
    (evalCubicBSpline u).B 0 = (1 - u) ^ 3 / 6 ∧
    (evalCubicBSpline u).B 1 = (3 * u ^ 3 - 6 * u ^ 2 + 4) / 6 ∧
    (evalCubicBSpline u).B 2 = (-3 * u ^ 3 + 3 * u ^ 2 + 3 * u + 1) / 6 ∧
    (evalCubicBSpline u).B 3 = u ^ 3 / 6 := by
  refine ⟨?_, ?_, ?_, ?_⟩ <;> simp [evalCubicBSpline] <;> field_simp <;> ring

/-- Witness of C18: the four weights at `u = 1/2` over the rationals. -/
theorem evalCubicBSpline_closed_form_witness :
    (evalCubicBSpline (1 / 2 : ℚ)).B 0 = (1 - 1 / 2) ^ 3 / 6 ∧
    (evalCubicBSpline (1 / 2 : ℚ)).B 1 = (3 * (1 / 2) ^ 3 - 6 * (1 / 2) ^ 2 + 4) / 6 ∧
    (evalCubicBSpline (1 / 2 : ℚ)).B 2
      = (-3 * (1 / 2) ^ 3 + 3 * (1 / 2) ^ 2 + 3 * (1 / 2) + 1) / 6 ∧
    (evalCubicBSpline (1 / 2 : ℚ)).B 3 = (1 / 2) ^ 3 / 6 :=
  evalCubicBSpline_closed_form (1 / 2 : ℚ)

end GregoryParts

section GregorySynthesis

variable {K : Type} [Field K]

omit [Field K] in
theorem setLoop_apply (n base : Nat) (g : Nat → K) (a : Nat → K) (m : Nat) :
    setLoop n base g a m = if base ≤ m ∧ m < base + n then g (m - base) else a m := by
  induction n with
  | zero =>
    have : ¬ (base ≤ m ∧ m < base + 0) := by omega
    rw [if_neg this]
    simp [setLoop]
  | succ n ih =>
    have hstep : setLoop (n + 1) base g a = setAt (setLoop n base g a) (base + n) (g n) := by
      simp [setLoop, List.range_succ, List.foldl_append]
    rw [hstep]
    unfold setAt
    by_cases hm : m = base + n
    · subst hm
      have h2 : base ≤ base + n ∧ base + n < base + (n + 1) := by omega
      simp [h2]
    · rw [if_neg hm, ih]
      by_cases h : base ≤ m ∧ m < base + n
      · have h2 : base ≤ m ∧ m < base + (n + 1) := by omega
        rw [if_pos h, if_pos h2]
      · have h2 : ¬ (base ≤ m ∧ m < base + (n + 1)) := by omega
        rw [if_neg h, if_neg h2]

omit [Field K] in
theorem foldl_proj {σ τ ι : Type} (π : σ → τ) (body : σ → ι → σ) (f : τ → ι → τ)
    (h : ∀ st x, π (body st x) = f (π st) x) (l : List ι) (st : σ) :
    π (l.foldl body st) = l.foldl f (π st) := by
  induction l generalizing st with
  | nil => rfl
  | cons x l ih => rw [List.foldl_cons, ih, h, List.foldl_cons]

theorem list_range_sum (f : Nat → K) (n : Nat) :
    ((List.range n).map f).sum = ∑ i ∈ Finset.range n, f i := by
  induction n with
  | zero => simp
  | succ n ih => simp [List.range_succ, Finset.sum_range_succ, ih]

/-- The accumulator `oQ` after the one-ring loop. -/
theorem ringLoop_oQ (valenceTable : Nat → Nat) (valence vertexID rSize : Nat)
    (inDesc : OsdVertexBufferDescriptor) (inQ : Nat → K) (st : RingState K) (k : Nat)
    (hk : k < inDesc.length) :
    (ringLoop valenceTable valence inDesc.length inDesc.stride rSize
        (fun n => inQ (inDesc.offset + n))
        (fun k => inQ (inDesc.offset + (vertexID * inDesc.stride + k))) st).oQ k
      = st.oQ k + ∑ i ∈ Finset.range valence, ringF valenceTable valence vertexID inDesc inQ i k := by
  unfold ringLoop
  rw [foldl_proj RingState.oQ _ (fun a i => addLoop inDesc.length 0
      (fun k => ringF valenceTable valence vertexID inDesc inQ i k) a)]
  · rw [foldl_addLoop_apply, ← list_range_sum]
    have : 0 ≤ k ∧ k < 0 + inDesc.length := by omega
    rw [if_pos this]
    simp
  · intro st i
    rw [foldl_proj RingState.oQ _ (fun a k => setAt a (0 + k)
      (a (0 + k) + ringF valenceTable valence vertexID inDesc inQ i k))]
    · rfl
    · intro st k
      simp only [Nat.zero_add]
      rfl

omit [Field K] in
/-- Reading row `i`, channel `k` after row-wise overwrites, one row per list
entry. -/
theorem foldl_rows_write_read {ι : Type} [DecidableEq ι] (n : Nat) (base : ι → Nat)
    (hbase : ∀ i j k, k < n → ((base j ≤ base i + k ∧ base i + k < base j + n) ↔ j = i))
    (G : ι → Nat → K) (l : List ι) (a : Nat → K) (i : ι) (k : Nat) (hk : k < n) :
    (l.foldl (fun a j => fun m' =>
        if base j ≤ m' ∧ m' < base j + n then G j (m' - base j) else a m') a) (base i + k)
      = if i ∈ l then G i k else a (base i + k) := by
  induction l generalizing a with
  | nil => simp
  | cons j l ih =>
    rw [List.foldl_cons, ih]
    by_cases hil : i ∈ l
    · simp [hil]
    · by_cases hji : j = i
      · subst hji
        have hw : base j ≤ base j + k ∧ base j + k < base j + n := by omega
        simp [hw]
      · have hw : ¬ (base j ≤ base i + k ∧ base i + k < base j + n) := by
          rw [hbase i j k hk]; exact hji
        have hij : ¬ i = j := fun h => hji h.symm
        simp [hil, hw, hij]

/-- The sum of the values `ringF` over the edges of corner `vid`, divided by
the valence: the value stored in `opos` for corner `vid`, channel `k`. -/
theorem cornerStep_opos (M : LibM K) (f0 : Nat → K) (vertexValenceBuffer : Nat → Nat)
    (maxValence : Nat) (vertexIndices : Nat → Nat) (inDesc : OsdVertexBufferDescriptor)
    (inQ : Nat → K) (st : CornerState K) (vid : Fin 4) :
    (cornerStep M f0 vertexValenceBuffer maxValence vertexIndices inDesc inQ st vid).opos
      = fun m' =>
          if vid.val * inDesc.length ≤ m' ∧ m' < vid.val * inDesc.length + inDesc.length then
            (∑ i ∈ Finset.range
                (vertexValenceBuffer (vertexIndices vid.val * (2 * maxValence + 1) + 0)),
              ringF (fun n => vertexValenceBuffer
                    (vertexIndices vid.val * (2 * maxValence + 1) + n))
                (vertexValenceBuffer (vertexIndices vid.val * (2 * maxValence + 1) + 0))
                (vertexIndices vid.val) inDesc inQ i (m' - vid.val * inDesc.length))
              / ((vertexValenceBuffer
                    (vertexIndices vid.val * (2 * maxValence + 1) + 0) : Nat) : K)
          else st.opos m' := by
  funext m'
  have h : (cornerStep M f0 vertexValenceBuffer maxValence vertexIndices inDesc inQ st vid).opos
      = setLoop inDesc.length (vid.val * inDesc.length)
          (fun k => (ringLoop (fun n => vertexValenceBuffer
                (vertexIndices vid.val * (2 * maxValence + 1) + n))
              (vertexValenceBuffer (vertexIndices vid.val * (2 * maxValence + 1) + 0))
              inDesc.length inDesc.stride (inDesc.length * 4 * maxValence)
              (fun n => inQ (inDesc.offset + n))
              (fun k => inQ (inDesc.offset + (vertexIndices vid.val * inDesc.stride + k)))
              { f := f0, fp := 0, oQ := memsetZero (fun _ => 0) 0 inDesc.length,
                r := st.r, rp := st.rp, rInBounds := st.rInBounds }).oQ k
            / ((vertexValenceBuffer
                (vertexIndices vid.val * (2 * maxValence + 1) + 0) : Nat) : K)) st.opos := rfl
  rw [h, setLoop_apply]
  by_cases hw : vid.val * inDesc.length ≤ m' ∧ m' < vid.val * inDesc.length + inDesc.length
  · rw [if_pos hw, if_pos hw, ringLoop_oQ _ _ _ _ _ _ _ _ (by omega)]
    simp [memsetZero]
  · rw [if_neg hw, if_neg hw]

/-- The array `opos` after the loop over the four corners. -/
theorem gregoryCorners_opos (M : LibM K) (scratch : GregoryScratch K)
    (vertexValenceBuffer : Nat → Nat) (maxValence : Nat) (vertexIndices : Nat → Nat)
    (inDesc : OsdVertexBufferDescriptor) (inQ : Nat → K) (vid : Fin 4) (k : Nat)
    (hk : k < inDesc.length) :
    (gregoryCorners M scratch vertexValenceBuffer maxValence vertexIndices inDesc inQ).opos
        (vid.val * inDesc.length + k)
      = (∑ i ∈ Finset.range
            (vertexValenceBuffer (vertexIndices vid.val * (2 * maxValence + 1) + 0)),
          ringF (fun n => vertexValenceBuffer
                (vertexIndices vid.val * (2 * maxValence + 1) + n))
            (vertexValenceBuffer (vertexIndices vid.val * (2 * maxValence + 1) + 0))
            (vertexIndices vid.val) inDesc inQ i k)
          / ((vertexValenceBuffer
                (vertexIndices vid.val * (2 * maxValence + 1) + 0) : Nat) : K) := by
  have hbase : ∀ (i j : Fin 4) (k : Nat), k < inDesc.length →
      ((j.val * inDesc.length ≤ i.val * inDesc.length + k ∧
        i.val * inDesc.length + k < j.val * inDesc.length + inDesc.length) ↔ j = i) := by
    intro i j k hk
    rw [row_index_iff _ _ _ _ hk]
    exact Fin.val_inj
  have h := foldl_rows_write_read inDesc.length (fun v : Fin 4 => v.val * inDesc.length) hbase
    (fun (v : Fin 4) (k' : Nat) =>
      (∑ i ∈ Finset.range
            (vertexValenceBuffer (vertexIndices v.val * (2 * maxValence + 1) + 0)),
          ringF (fun n => vertexValenceBuffer
                (vertexIndices v.val * (2 * maxValence + 1) + n))
            (vertexValenceBuffer (vertexIndices v.val * (2 * maxValence + 1) + 0))
            (vertexIndices v.val) inDesc inQ i k')
          / ((vertexValenceBuffer
                (vertexIndices v.val * (2 * maxValence + 1) + 0) : Nat) : K))
    (List.finRange 4) (fun _ => 0) vid k hk
  simp only [List.mem_finRange, if_true] at h
  rw [← h]
  unfold gregoryCorners
  exact congrFun (foldl_proj CornerState.opos _ _
    (cornerStep_opos M scratch.f vertexValenceBuffer maxValence vertexIndices inDesc inQ)
    (List.finRange 4) _) _

/-- C14: for every corner `vid` with valence `n >= 3` and every channel
`k < inDesc.length`, the corner control point is
`opos[vid*length + k] = (1/n) * Σ_{i<n} f_i[k]` with
`f_i[k] = (n * Q[k] + 2 * (neighbor_{(i+1) mod n}[k] + neighbor_i[k]) + diagonal_i[k]) / (n + 5)`,
`Q` being the input vertex of the corner. -/
theorem gregory_opos_is_average (M : LibM K) (scratch : GregoryScratch K)
    (vertexValenceBuffer : Nat → Nat) (maxValence : Nat) (vertexIndices : Nat → Nat)
    (inDesc : OsdVertexBufferDescriptor) (inQ : Nat → K) (vid : Fin 4) (k : Nat)
    (hn : 3 ≤ cornerValence vertexValenceBuffer maxValence vertexIndices vid)
    (hk : k < inDesc.length) :
    (gregoryCorners M scratch vertexValenceBuffer maxValence vertexIndices inDesc inQ).opos
        (vid.val * inDesc.length + k)
      = 1 / (cornerValence vertexValenceBuffer maxValence vertexIndices vid : K)
        * ∑ i ∈ Finset.range (cornerValence vertexValenceBuffer maxValence vertexIndices vid),
            ((cornerValence vertexValenceBuffer maxValence vertexIndices vid : K)
                * cornerVertexValue vertexIndices inDesc inQ vid k
              + 2 * (neighborValue vertexValenceBuffer maxValence vertexIndices inDesc inQ vid
                      ((i + 1) % cornerValence vertexValenceBuffer maxValence vertexIndices vid) k
                    + neighborValue vertexValenceBuffer maxValence vertexIndices inDesc inQ vid
                        i k)
              + diagonalValue vertexValenceBuffer maxValence vertexIndices inDesc inQ vid i k)
            / ((cornerValence vertexValenceBuffer maxValence vertexIndices vid : K) + 5) := by
  have _ := hn
  rw [gregoryCorners_opos M scratch vertexValenceBuffer maxValence vertexIndices inDesc inQ vid k
    hk, div_eq_mul_one_div, mul_comm]
  simp only [cornerValence, Nat.add_zero]
  congr 1
  refine Finset.sum_congr rfl (fun i _ => ?_)
  simp only [ringF, cornerVertexValue, neighborValue, diagonalValue, Nat.add_zero, Nat.add_assoc]
  ring

/-- Witness of C14: corner 0 (vertex 5, valence 4) of the lattice patch with
the bump data, channel 0. -/
theorem gregory_opos_is_average_witness :
    3 ≤ cornerValence latticeValenceBuffer 4 gregoryIndices 0 ∧ 0 < desc1.length ∧
    (gregoryCorners quarterTurnLibM zeroScratch latticeValenceBuffer 4 gregoryIndices
        desc1 bumpQ).opos ((0 : Fin 4).val * desc1.length + 0)
      = 1 / (cornerValence latticeValenceBuffer 4 gregoryIndices 0 : ℚ)
        * ∑ i ∈ Finset.range (cornerValence latticeValenceBuffer 4 gregoryIndices 0),
            ((cornerValence latticeValenceBuffer 4 gregoryIndices 0 : ℚ)
                * cornerVertexValue gregoryIndices desc1 bumpQ 0 0
              + 2 * (neighborValue latticeValenceBuffer 4 gregoryIndices desc1 bumpQ 0
                      ((i + 1) % cornerValence latticeValenceBuffer 4 gregoryIndices 0) 0
                    + neighborValue latticeValenceBuffer 4 gregoryIndices desc1 bumpQ 0 i 0)
              + diagonalValue latticeValenceBuffer 4 gregoryIndices desc1 bumpQ 0 i 0)
            / ((cornerValence latticeValenceBuffer 4 gregoryIndices 0 : ℚ) + 5) :=
  ⟨by decide, by decide,
    gregory_opos_is_average quarterTurnLibM zeroScratch latticeValenceBuffer 4 gregoryIndices
      desc1 bumpQ 0 0 (by decide) (by decide)⟩

end GregorySynthesis

section GregoryBounds

variable {K : Type} [Field K]

/-- The positions and the bounds record of `n` successive stores through a
pointer that starts at position `p`. -/
theorem stores_in_bounds (rSize n p : Nat) (b : Bool) :
    (List.range n).foldl
        (fun (s : Nat × Bool) (_ : Nat) => (s.1 + 1, s.2 && decide (s.1 < rSize))) (p, b)
      = (p + n, b && decide (n = 0 ∨ p + n ≤ rSize)) := by
  induction n with
  | zero => simp
  | succ n ih =>
    rw [List.range_succ, List.foldl_append, ih]
    simp only [List.foldl_cons, List.foldl_nil]
    have key : ((n = 0 ∨ p + n ≤ rSize) ∧ p + n < rSize)
        ↔ (n + 1 = 0 ∨ p + (n + 1) ≤ rSize) := by omega
    refine Prod.ext (by simp only; omega) ?_
    simp only [Bool.and_assoc, ← Bool.decide_and]
    rw [decide_eq_decide.mpr key]

/-- The positions and the bounds record of `valence` rounds of `length`
stores each. -/
theorem ring_stores_in_bounds (rSize length valence p : Nat) (b : Bool) :
    (List.range valence).foldl (fun (s : Nat × Bool) (_ : Nat) =>
        (List.range length).foldl
          (fun (s : Nat × Bool) (_ : Nat) => (s.1 + 1, s.2 && decide (s.1 < rSize))) s) (p, b)
      = (p + valence * length,
          b && decide (valence * length = 0 ∨ p + valence * length ≤ rSize)) := by
  induction valence with
  | zero => simp
  | succ v ih =>
    rw [List.range_succ, List.foldl_append, ih]
    simp only [List.foldl_cons, List.foldl_nil, stores_in_bounds]
    have hmul : (v + 1) * length = v * length + length := by ring
    have key : ((v * length = 0 ∨ p + v * length ≤ rSize)
          ∧ (length = 0 ∨ p + v * length + length ≤ rSize))
        ↔ ((v + 1) * length = 0 ∨ p + (v + 1) * length ≤ rSize) := by
      rw [hmul]
      generalize v * length = a
      omega
    refine Prod.ext (by simp only; rw [hmul]; omega) ?_
    simp only [Bool.and_assoc, ← Bool.decide_and]
    rw [decide_eq_decide.mpr key]

/-- The pointer `rp` and the bounds record after the one-ring loop. -/
theorem ringLoop_rp (valenceTable : Nat → Nat) (valence length stride rSize : Nat)
    (inQo Q : Nat → K) (st : RingState K) :
    (ringLoop valenceTable valence length stride rSize inQo Q st).rp
        = st.rp + valence * length ∧
    (ringLoop valenceTable valence length stride rSize inQo Q st).rInBounds
        = (st.rInBounds && decide (valence * length = 0 ∨ st.rp + valence * length ≤ rSize)) := by
  have h : (fun s : RingState K => (s.rp, s.rInBounds))
      (ringLoop valenceTable valence length stride rSize inQo Q st)
      = (st.rp + valence * length,
          st.rInBounds && decide (valence * length = 0 ∨ st.rp + valence * length ≤ rSize)) := by
    unfold ringLoop
    refine Eq.trans (foldl_proj (fun s : RingState K => (s.rp, s.rInBounds)) _
      (fun (s : Nat × Bool) (_ : Nat) =>
        (List.range length).foldl
          (fun (s : Nat × Bool) (_ : Nat) => (s.1 + 1, s.2 && decide (s.1 < rSize))) s)
      ?_ _ _) (ring_stores_in_bounds rSize length valence st.rp st.rInBounds)
    intro st i
    exact foldl_proj (fun s : RingState K => (s.rp, s.rInBounds)) _
      (fun (s : Nat × Bool) (_ : Nat) => (s.1 + 1, s.2 && decide (s.1 < rSize)))
      (fun _ _ => rfl) _ _
  exact ⟨congrArg Prod.fst h, congrArg Prod.snd h⟩

/-- The pointer `rp` and the bounds record after one iteration of the loop
over the corners. -/
theorem cornerStep_rp (M : LibM K) (f0 : Nat → K) (vertexValenceBuffer : Nat → Nat)
    (maxValence : Nat) (vertexIndices : Nat → Nat) (inDesc : OsdVertexBufferDescriptor)
    (inQ : Nat → K) (st : CornerState K) (vid : Fin 4) :
    (fun s : CornerState K => (s.rp, s.rInBounds))
        (cornerStep M f0 vertexValenceBuffer maxValence vertexIndices inDesc inQ st vid)
      = (st.rp + cornerValence vertexValenceBuffer maxValence vertexIndices vid * inDesc.length
            + maxValence * inDesc.length,
          st.rInBounds && decide
            (cornerValence vertexValenceBuffer maxValence vertexIndices vid * inDesc.length = 0 ∨
              st.rp + cornerValence vertexValenceBuffer maxValence vertexIndices vid
                * inDesc.length ≤ inDesc.length * 4 * maxValence)) := by
  have h := ringLoop_rp (K := K)
    (fun n => vertexValenceBuffer (vertexIndices vid.val * (2 * maxValence + 1) + n))
    (vertexValenceBuffer (vertexIndices vid.val * (2 * maxValence + 1) + 0))
    inDesc.length inDesc.stride (inDesc.length * 4 * maxValence)
    (fun n => inQ (inDesc.offset + n))
    (fun k => inQ (inDesc.offset + (vertexIndices vid.val * inDesc.stride + k)))
    { f := f0, fp := 0, oQ := memsetZero (fun _ => 0) 0 inDesc.length,
      r := st.r, rp := st.rp, rInBounds := st.rInBounds }
  exact Prod.ext (congrArg (· + maxValence * inDesc.length) h.1) h.2

/-- The bounds record after the loop over the four corners: corner `vid`
stores its `valence * length` entries from the position reached after the
`(valence + maxValence) * length` entries skipped for each earlier corner. -/
theorem gregoryCorners_rInBounds_eq (M : LibM K) (scratch : GregoryScratch K)
    (vertexValenceBuffer : Nat → Nat) (maxValence : Nat) (vertexIndices : Nat → Nat)
    (inDesc : OsdVertexBufferDescriptor) (inQ : Nat → K) :
    (fun s : CornerState K => (s.rp, s.rInBounds))
        (gregoryCorners M scratch vertexValenceBuffer maxValence vertexIndices inDesc inQ)
      = (List.finRange 4).foldl (fun (s : Nat × Bool) (vid : Fin 4) =>
          (s.1 + cornerValence vertexValenceBuffer maxValence vertexIndices vid * inDesc.length
              + maxValence * inDesc.length,
            s.2 && decide
              (cornerValence vertexValenceBuffer maxValence vertexIndices vid * inDesc.length = 0 ∨
                s.1 + cornerValence vertexValenceBuffer maxValence vertexIndices vid
                  * inDesc.length ≤ inDesc.length * 4 * maxValence))) (0, true) := by
  unfold gregoryCorners
  exact foldl_proj (fun s : CornerState K => (s.rp, s.rInBounds)) _ _
    (cornerStep_rp M scratch.f vertexValenceBuffer maxValence vertexIndices inDesc inQ) _ _

/-- When the four valences sum to at most `maxValence`, every store of the
loop over the corners falls inside `r`. -/
theorem gregoryCorners_rInBounds (M : LibM K) (scratch : GregoryScratch K)
    (vertexValenceBuffer : Nat → Nat) (maxValence : Nat) (vertexIndices : Nat → Nat)
    (inDesc : OsdVertexBufferDescriptor) (inQ : Nat → K)
    (hsum : cornerValence vertexValenceBuffer maxValence vertexIndices 0
      + cornerValence vertexValenceBuffer maxValence vertexIndices 1
      + cornerValence vertexValenceBuffer maxValence vertexIndices 2
      + cornerValence vertexValenceBuffer maxValence vertexIndices 3 ≤ maxValence) :
    (gregoryCorners M scratch vertexValenceBuffer maxValence vertexIndices inDesc inQ).rInBounds
      = true := by
  have h := congrArg Prod.snd
    (gregoryCorners_rInBounds_eq M scratch vertexValenceBuffer maxValence vertexIndices inDesc inQ)
  simp only at h
  rw [h]
  have hL := Nat.mul_le_mul_right inDesc.length hsum
  simp only [Nat.add_mul] at hL
  have h4 : inDesc.length * 4 * maxValence = 4 * (maxValence * inDesc.length) := by ring
  have hlist : List.finRange 4 = [0, 1, 2, 3] := rfl
  rw [hlist, h4]
  simp only [List.foldl_cons, List.foldl_nil, Bool.true_and, Bool.and_eq_true, decide_eq_true_eq]
  refine ⟨⟨⟨?_, ?_⟩, ?_⟩, ?_⟩ <;> right <;> omega

end GregoryBounds

section GregoryPatch

/-- On the lattice patch with `maxValence = 16` the four valences sum to 16,
so every store of the loop over the corners falls inside `r`, whatever the
vertex data. -/
theorem sample_rInBounds (M : LibM ℚ) (sc : GregoryScratch ℚ)
    (inDesc : OsdVertexBufferDescriptor) (inQ : Nat → ℚ) :
    (gregoryCorners M sc latticeValenceBuffer16 16 gregoryIndices inDesc inQ).rInBounds
      = true :=
  gregoryCorners_rInBounds M sc latticeValenceBuffer16 16 gregoryIndices inDesc inQ (by decide)

/-- On the lattice patch with `maxValence = 4` the stores of corner 2 start
at entry 16 of the 16 entries of `r`: `evalGregory` does not return. -/
theorem sample_overrun (M : LibM ℚ) (sc : GregoryScratch ℚ) (u v : ℚ) (inQ outQ : Nat → ℚ)
    (outDQU outDQV : Option (Nat → ℚ)) :
    evalGregory M sc u v latticeValenceBuffer latticeQuadOffsets 4 gregoryIndices
      desc1 inQ desc1 outQ outDQU outDQV = none := by
  have h := congrArg Prod.snd
    (gregoryCorners_rInBounds_eq M sc latticeValenceBuffer 4 gregoryIndices desc1 inQ)
  have hlist : List.finRange 4 = [0, 1, 2, 3] := rfl
  have hv : ∀ vid : Fin 4, cornerValence latticeValenceBuffer 4 gregoryIndices vid = 4 := by
    decide
  simp only [hlist, List.foldl_cons, List.foldl_nil, hv] at h
  have hf : (gregoryCorners M sc latticeValenceBuffer 4 gregoryIndices desc1 inQ).rInBounds
      = false := by
    rw [h]; decide
  simp [evalGregory, hf]

/-- Corner control points `P` that `evalGregory` synthesizes for corner 0
(vertex 5) and corner 2 (vertex 10) of the lattice patch with the bump data
(`maxValence = 16`). -/
theorem sample_opos (M : LibM ℚ) (sc : GregoryScratch ℚ) :
    (gregoryCorners M sc latticeValenceBuffer16 16 gregoryIndices desc1 bumpQ).opos 0 = 4 / 9 ∧
    (gregoryCorners M sc latticeValenceBuffer16 16 gregoryIndices desc1 bumpQ).opos 2
      = 1 / 36 := by
  have h0 := gregoryCorners_opos M sc latticeValenceBuffer16 16 gregoryIndices desc1 bumpQ 0 0
    (by decide)
  have h2 := gregoryCorners_opos M sc latticeValenceBuffer16 16 gregoryIndices desc1 bumpQ 2 0
    (by decide)
  have e0 : (0 : Fin 4).val * desc1.length + 0 = 0 := rfl
  have e2 : (2 : Fin 4).val * desc1.length + 0 = 2 := rfl
  rw [e0] at h0
  rw [e2] at h2
  constructor
  · rw [h0]
    simp [ringF, Finset.sum_range_succ, latticeValenceBuffer16, gregoryIndices, desc1, bumpQ]
    norm_num
  · rw [h2]
    simp [ringF, Finset.sum_range_succ, latticeValenceBuffer16, gregoryIndices, desc1, bumpQ]
    norm_num

/-- What `evalGregory` writes at `(0,0)` for the lattice patch with the bump
data: channel 0 of the raw corner vertex `vertexIndices[0]`. -/
theorem sample_gregory_origin (M : LibM ℚ) (sc : GregoryScratch ℚ) (outQ : Nat → ℚ) :
    (evalGregory M sc 0 0 latticeValenceBuffer16 latticeQuadOffsets 16 gregoryIndices
        desc1 bumpQ desc1 outQ none none).map (fun r => r.Q (desc1.offset + 0)) = some 1 := by
  rw [(evalGregory_Q_at_ends M sc 0 latticeValenceBuffer16 latticeQuadOffsets 16 gregoryIndices
      desc1 bumpQ desc1 outQ (by decide) (sample_rInBounds M sc _ _) 0 (by decide) (by decide)).1,
    scratch_BU_flat (univar4x4 (0 : ℚ)) false gregoryIndices desc1 bumpQ 0 0 0
      (by decide) (by decide), rowSum_univar_zero]
  simp [desc1, gregoryIndices, bumpQ]

/-- C7: on the lattice patch (`maxValence = 16`, four corners of valence 4,
bump data, one channel) at `(u,v) = (0,0)`, `evalGregory` writes `1`, channel 0 of the raw
input vertex `vertexIndices[0]`, whereas the tensor-product sum of the
`univar4x4` weights over the synthesized grid `q` is `4/9` (for both
orderings of the grid).  This holds for every math library and every
content of the uncleared stack arrays. -/
theorem evalGregory_output_is_not_grid_sum (M : LibM ℚ) (sc : GregoryScratch ℚ)
    (outQ : Nat → ℚ) :
    (evalGregory M sc 0 0 latticeValenceBuffer16 latticeQuadOffsets 16 gregoryIndices
        desc1 bumpQ desc1 outQ none none).map (fun r => r.Q (desc1.offset + 0)) = some 1 ∧
    (∑ i : Fin 4, ∑ j : Fin 4, (univar4x4 (0 : ℚ)).B i * (univar4x4 (0 : ℚ)).B j
        * gregoryGrid 0 0
            (gregoryCorners M sc latticeValenceBuffer16 16 gregoryIndices desc1 bumpQ)
            (gregoryTess M
              (gregoryCorners M sc latticeValenceBuffer16 16 gregoryIndices desc1 bumpQ)
              latticeQuadOffsets 16 desc1.length)
            desc1.length ((4 * i.val + j.val) * desc1.length + 0)) = 4 / 9 ∧
    (∑ i : Fin 4, ∑ j : Fin 4, (univar4x4 (0 : ℚ)).B i * (univar4x4 (0 : ℚ)).B j
        * gregoryGrid 0 0
            (gregoryCorners M sc latticeValenceBuffer16 16 gregoryIndices desc1 bumpQ)
            (gregoryTess M
              (gregoryCorners M sc latticeValenceBuffer16 16 gregoryIndices desc1 bumpQ)
              latticeQuadOffsets 16 desc1.length)
            desc1.length ((i.val + 4 * j.val) * desc1.length + 0)) = 4 / 9 := by
  have h := (sample_opos M sc).1
  refine ⟨sample_gregory_origin M sc outQ, ?_, ?_⟩
  · simp [Fin.sum_univ_four, univar4x4]
    simp [gregoryGrid, memcpyFrom, gregoryPoint, desc1]
    simpa [desc1] using h
  · simp [Fin.sum_univ_four, univar4x4]
    simp [gregoryGrid, memcpyFrom, gregoryPoint, desc1]
    simpa [desc1] using h

/-- C8: on the lattice patch (`maxValence = 16`) with the bump data, at the corner `(0,0)`
`evalGregory` writes `1` whereas the synthesized corner point is
`P_0 = opos[0] = 4/9`, and at the corner `(1,1)` it writes `0` whereas the
synthesized corner point is `P_2 = opos[2] = 1/36`. -/
theorem evalGregory_corner_is_not_P (M : LibM ℚ) (sc : GregoryScratch ℚ) (outQ : Nat → ℚ) :
    ((evalGregory M sc 0 0 latticeValenceBuffer16 latticeQuadOffsets 16 gregoryIndices
        desc1 bumpQ desc1 outQ none none).map (fun r => r.Q (desc1.offset + 0)) = some 1 ∧
      (gregoryCorners M sc latticeValenceBuffer16 16 gregoryIndices desc1 bumpQ).opos
        (0 * desc1.length + 0) = 4 / 9) ∧
    ((evalGregory M sc 1 1 latticeValenceBuffer16 latticeQuadOffsets 16 gregoryIndices
        desc1 bumpQ desc1 outQ none none).map (fun r => r.Q (desc1.offset + 0)) = some 0 ∧
      (gregoryCorners M sc latticeValenceBuffer16 16 gregoryIndices desc1 bumpQ).opos
        (2 * desc1.length + 0) = 1 / 36) := by
  refine ⟨⟨sample_gregory_origin M sc outQ, (sample_opos M sc).1⟩, ?_, (sample_opos M sc).2⟩
  rw [(evalGregory_Q_at_ends M sc 1 latticeValenceBuffer16 latticeQuadOffsets 16 gregoryIndices
      desc1 bumpQ desc1 outQ (by decide) (sample_rInBounds M sc _ _) 0 (by decide) (by decide)).2,
    scratch_BU_flat (univar4x4 (1 : ℚ)) false gregoryIndices desc1 bumpQ 3 0 3
      (by decide) (by decide), rowSum_univar_one]
  have h3 : ((3 : Fin 4) : Nat) = 3 := rfl
  simp [desc1, gregoryIndices, bumpQ, h3]

/-- C9: two calls of `evalGregory` at `(u,v) = (0,1)` on the lattice patch
(`maxValence = 16`),
one with three channels per vertex and one with six, whose input vertices
agree on their first three channels: each of the first three output channels
is `2` in the first call and `0` in the second. -/
theorem evalGregory_channels_depend_on_length (M : LibM ℚ) (sc : GregoryScratch ℚ)
    (outQ : Nat → ℚ) :
    (∀ n k, k < 3 →
      positionNormalQ (desc6.offset + n * desc6.stride + k)
        = positionQ (desc3.offset + n * desc3.stride + k)) ∧
    ∀ k, k < 3 →
      (evalGregory M sc 0 1 latticeValenceBuffer16 latticeQuadOffsets 16 gregoryIndices
          desc3 positionQ desc3 outQ none none).map (fun r => r.Q (desc3.offset + k)) = some 2 ∧
      (evalGregory M sc 0 1 latticeValenceBuffer16 latticeQuadOffsets 16 gregoryIndices
          desc6 positionNormalQ desc6 outQ none none).map (fun r => r.Q (desc6.offset + k))
        = some 0 := by
  constructor
  · intro n k hk
    have h6 : (0 + n * 6 + k) % 6 = k := by omega
    have h6d : (0 + n * 6 + k) / 6 = n := by omega
    have h3 : (0 + n * 3 + k) % 3 = k := by omega
    have h3d : (0 + n * 3 + k) / 3 = n := by omega
    simp only [positionNormalQ, positionQ, desc3, desc6, h6, h6d, h3, h3d]
    interval_cases k <;> rfl
  · intro k hk
    constructor
    · rw [(evalGregory_Q_at_ends M sc 0 latticeValenceBuffer16 latticeQuadOffsets 16 gregoryIndices
          desc3 positionQ desc3 outQ (by decide) (sample_rInBounds M sc _ _) k hk hk).2,
        scratch_BU_flat (univar4x4 (0 : ℚ)) false gregoryIndices desc3 positionQ 1 0 3
          (by decide) (by decide), rowSum_univar_zero]
      simp [desc3, gregoryIndices, positionQ]
    · have hk6 : k < desc6.length := Nat.lt_of_lt_of_le hk (by decide)
      rw [(evalGregory_Q_at_ends M sc 0 latticeValenceBuffer16 latticeQuadOffsets 16 gregoryIndices
          desc6 positionNormalQ desc6 outQ (by decide) (sample_rInBounds M sc _ _) k hk6 hk6).2,
        scratch_BU_flat (univar4x4 (0 : ℚ)) false gregoryIndices desc6 positionNormalQ 0 3 3
          (by decide) (by decide), rowSum_univar_zero]
      simp [desc6, gregoryIndices, positionNormalQ]

/-- C10: on the regular lattice with the bump data, at `(u,v) = (0,0)`,
`evalBSpline` on the 4x4 grid returns `4/9` whereas `evalGregory` on the
patch whose corners are the four inner vertices (each of valence 4, one-rings
and quad offsets taken from the lattice, `maxValence = 16`) returns `1`. -/
theorem evalGregory_disagrees_with_evalBSpline (M : LibM ℚ) (sc : GregoryScratch ℚ)
    (outQ : Nat → ℚ) :
    (evalBSpline (0 : ℚ) 0 latticeIndices desc1 bumpQ desc1 outQ none none).map
        (fun r => r.Q (desc1.offset + 0)) = some (4 / 9) ∧
    (evalGregory M sc 0 0 latticeValenceBuffer16 latticeQuadOffsets 16 gregoryIndices
        desc1 bumpQ desc1 outQ none none).map (fun r => r.Q (desc1.offset + 0)) = some 1 := by
  refine ⟨?_, sample_gregory_origin M sc outQ⟩
  obtain ⟨r, hr, hQ⟩ :=
    evalBSpline_Q (0 : ℚ) 0 latticeIndices desc1 bumpQ desc1 outQ none none (by decide) rfl
  rw [hr, Option.map_some', hQ 0 (by decide)]
  simp only [Fin.sum_univ_four, controlValue, evalCubicBSpline]
  simp [latticeIndices, desc1, bumpQ]
  norm_num

end GregoryPatch

section GregoryOutputBuffer

/-- Position output of `evalGregory` at `v = 1` in a channel `k` of the
window, whether or not the clearing covers it: the cleared or stale entry plus
the flat scratch entry 3. -/
theorem evalGregory_Q_v_one {K : Type} [Field K] [DecidableEq K] (M : LibM K)
    (scratch : GregoryScratch K) (u : K)
    (vertexValenceBuffer quadOffsetBuffer : Nat → Nat) (maxValence : Nat)
    (vertexIndices : Nat → Nat)
    (inDesc : OsdVertexBufferDescriptor) (inQ : Nat → K)
    (outDesc : OsdVertexBufferDescriptor) (outQ : Nat → K)
    (hcap : capacityOK inDesc outDesc)
    (hrb : (gregoryCorners M scratch vertexValenceBuffer maxValence vertexIndices
      inDesc inQ).rInBounds = true) :
    ∃ r, evalGregory M scratch u 1 vertexValenceBuffer quadOffsetBuffer maxValence
        vertexIndices inDesc inQ outDesc outQ none none = some r ∧
      ∀ k, k < inDesc.length →
        r.Q (outDesc.offset + k)
          = memsetZero outQ outDesc.offset outDesc.length (outDesc.offset + k)
            + (accumulateU (univar4x4 u) false vertexIndices
                inDesc inQ (memsetZero (fun _ => 0) 0 (inDesc.length * 4),
                  memsetZero (fun _ => 0) 0 (inDesc.length * 4))).1 3 := by
  obtain ⟨r, hr, hQ⟩ := evalGregory_Q M scratch u 1 vertexValenceBuffer quadOffsetBuffer
    maxValence vertexIndices inDesc inQ outDesc outQ none none hcap hrb rfl
  refine ⟨r, hr, fun k hk => ?_⟩
  have hwin : outDesc.offset ≤ outDesc.offset + k ∧
      outDesc.offset + k < outDesc.offset + inDesc.length :=
    ⟨Nat.le_add_right _ _, Nat.add_lt_add_left hk _⟩
  have h3 : ((3 : Fin 4) : Nat) = 3 := rfl
  rw [hQ, if_pos hwin, univar4x4_B_at_ends.2]
  simp [Fin.sum_univ_four, h3]

/-- The flat scratch entry `BU[3]` of the lattice patch with three channels
at `u = 0`: row 1, channel 0, the column coordinate `2` of vertex 6. -/
theorem sample_flat_three :
    (accumulateU (univar4x4 (0 : ℚ)) false gregoryIndices desc3 positionQ
      (memsetZero (fun _ => 0) 0 (desc3.length * 4),
        memsetZero (fun _ => 0) 0 (desc3.length * 4))).1 3 = 2 := by
  rw [scratch_BU_flat (univar4x4 (0 : ℚ)) false gregoryIndices desc3 positionQ 1 0 3
      (by decide) (by decide), rowSum_univar_zero]
  simp [desc3, gregoryIndices, positionQ]

/-- C16: a call of `evalGregory` on the lattice patch (`maxValence = 16`)
with three input channels and an output descriptor of `length` 6 (capacity
precondition satisfied) on an output buffer filled with `7` leaves `0` in the
entry `outDesc.offset + 3`, which lies outside the range of the three written
channels. -/
theorem evalGregory_clears_outside_channels (M : LibM ℚ) (sc : GregoryScratch ℚ) :
    capacityOK desc3 desc6 ∧ desc3.length ≤ 3 ∧
    (evalGregory M sc 0 1 latticeValenceBuffer16 latticeQuadOffsets 16 gregoryIndices
        desc3 positionQ desc6 (fun _ => 7) none none).map (fun r => r.Q (desc6.offset + 3))
      = some 0 := by
  refine ⟨by decide, by decide, ?_⟩
  obtain ⟨r, hr, hQ⟩ := evalGregory_Q M sc 0 1 latticeValenceBuffer16 latticeQuadOffsets 16
    gregoryIndices desc3 positionQ desc6 (fun _ => 7) none none (by decide)
    (sample_rInBounds M sc _ _) rfl
  rw [hr, Option.map_some', hQ]
  simp [desc3, desc6, memsetZero]

/-- C17: on the lattice patch (`maxValence = 16`) with three input channels
and an output descriptor of `length` 1 (capacity precondition satisfied), the
value `evalGregory` leaves in channel 1 is `2` on an output buffer filled
with `0` and `9` on one filled with `7`; and a second call on the buffer left
by a first call leaves `4` where one call leaves `2`. -/
theorem evalGregory_output_depends_on_buffer (M : LibM ℚ) (sc : GregoryScratch ℚ) :
    capacityOK desc3 descOut1 ∧ 1 < desc3.length ∧
    (evalGregory M sc 0 1 latticeValenceBuffer16 latticeQuadOffsets 16 gregoryIndices
        desc3 positionQ descOut1 (fun _ => 0) none none).map
          (fun r => r.Q (descOut1.offset + 1)) = some 2 ∧
    (evalGregory M sc 0 1 latticeValenceBuffer16 latticeQuadOffsets 16 gregoryIndices
        desc3 positionQ descOut1 (fun _ => 7) none none).map
          (fun r => r.Q (descOut1.offset + 1)) = some 9 ∧
    (evalGregory M sc 0 1 latticeValenceBuffer16 latticeQuadOffsets 16 gregoryIndices
        desc3 positionQ descOut1 (fun _ => 0) none none).bind
          (fun r1 =>
            (evalGregory M sc 0 1 latticeValenceBuffer16 latticeQuadOffsets 16 gregoryIndices
              desc3 positionQ descOut1 r1.Q none none).map
                (fun r2 => r2.Q (descOut1.offset + 1))) = some 4 := by
  have hcap : capacityOK desc3 descOut1 := by decide
  have hk : 1 < desc3.length := by decide
  have hrb := sample_rInBounds M sc desc3 positionQ
  have hstale : ∀ outQ : Nat → ℚ,
      memsetZero outQ descOut1.offset descOut1.length (descOut1.offset + 1) = outQ 1 := by
    intro outQ
    simp [memsetZero, descOut1]
  obtain ⟨r0, hr0, hQ0⟩ := evalGregory_Q_v_one M sc 0 latticeValenceBuffer16 latticeQuadOffsets 16
    gregoryIndices desc3 positionQ descOut1 (fun _ => 0) hcap hrb
  obtain ⟨r7, hr7, hQ7⟩ := evalGregory_Q_v_one M sc 0 latticeValenceBuffer16 latticeQuadOffsets 16
    gregoryIndices desc3 positionQ descOut1 (fun _ => 7) hcap hrb
  obtain ⟨r2, hr2, hQ2⟩ := evalGregory_Q_v_one M sc 0 latticeValenceBuffer16 latticeQuadOffsets 16
    gregoryIndices desc3 positionQ descOut1 r0.Q hcap hrb
  have h0 : r0.Q (descOut1.offset + 1) = 2 := by
    rw [hQ0 1 hk, hstale, sample_flat_three]; norm_num
  have h1 : r0.Q 1 = 2 := h0
  refine ⟨hcap, hk, ?_, ?_, ?_⟩
  · rw [hr0, Option.map_some', h0]
  · rw [hr7, Option.map_some', hQ7 1 hk, hstale, sample_flat_three]; norm_num
  · rw [hr0, Option.some_bind, hr2, Option.map_some', hQ2 1 hk, hstale, sample_flat_three, h1]
    norm_num

end GregoryOutputBuffer

section GregoryScratchArrays

/-- The bitwise conjunctions with the valence 4 that the one-ring loop
computes for `i + valence - 1` with `i = 0, 1, 2, 3`. -/
theorem land_four : (3 &&& 4 = 0) ∧ (4 &&& 4 = 4) ∧ (5 &&& 4 = 4) ∧ (6 &&& 4 = 4) := by
  decide

set_option maxHeartbeats 4000000 in
/-- Entries of the array `r`, and the final position of `rp`, after the loop
over the corners of the lattice patch with the ramp data (`maxValence = 4`,
one channel). -/
theorem sample_r (M : LibM ℚ) (sc : GregoryScratch ℚ) :
    (gregoryCorners M sc latticeValenceBuffer 4 gregoryIndices desc1 rampQ).r 0 = 1 ∧
    (gregoryCorners M sc latticeValenceBuffer 4 gregoryIndices desc1 rampQ).r 5 = sc.r 5 ∧
    (gregoryCorners M sc latticeValenceBuffer 4 gregoryIndices desc1 rampQ).r 9 = 19 / 6 ∧
    (gregoryCorners M sc latticeValenceBuffer 4 gregoryIndices desc1 rampQ).r 24 = 1 ∧
    (gregoryCorners M sc latticeValenceBuffer 4 gregoryIndices desc1 rampQ).rp = 32 := by
  refine ⟨?_, ?_, ?_, ?_, ?_⟩
  all_goals
    simp [gregoryCorners, cornerStep, ringLoop, List.finRange, List.range_succ, setAt,
      memsetZero, desc1, gregoryIndices, latticeValenceBuffer, rampQ, Function.update,
      land_four.1, land_four.2.1, land_four.2.2.1, land_four.2.2.2]
  all_goals norm_num

/-- C11: on the lattice patch with the ramp data, corner 0 has valence 4; for
its edge 0 the source computes the previous edge index `(0+4-1) & 4 = 0`
where the cyclically preceding edge is `(0+4-1) mod 4 = 3`, and for edge 1 it
computes `(1+4-1) & 4 = 4`, not an edge index in `0..3`; the value stored for
edge 0 is `1`, whereas
`(neighbor_1 - neighbor_3)/3 + (diagonal_0 - diagonal_3)/6 = 4`. -/
theorem ring_previous_edge_is_bitand (M : LibM ℚ) (sc : GregoryScratch ℚ) :
    cornerValence latticeValenceBuffer 4 gregoryIndices 0 = 4 ∧
    ((0 + 4 - 1) &&& 4 = 0 ∧ (0 + 4 - 1) % 4 = 3 ∧ (1 + 4 - 1) &&& 4 = 4) ∧
    (gregoryCorners M sc latticeValenceBuffer 4 gregoryIndices desc1 rampQ).r
        (0 * desc1.length + 0) = 1 ∧
    (neighborValue latticeValenceBuffer 4 gregoryIndices desc1 rampQ 0 ((0 + 1) % 4) 0
        - neighborValue latticeValenceBuffer 4 gregoryIndices desc1 rampQ 0 ((0 + 4 - 1) % 4) 0) / 3
      + (diagonalValue latticeValenceBuffer 4 gregoryIndices desc1 rampQ 0 0 0
        - diagonalValue latticeValenceBuffer 4 gregoryIndices desc1 rampQ 0 ((0 + 4 - 1) % 4) 0) / 6
      = 4 := by
  refine ⟨by decide, by decide, (sample_r M sc).1, ?_⟩
  simp [neighborValue, diagonalValue, latticeValenceBuffer, gregoryIndices, desc1, rampQ]
  norm_num

/-- C20: on the lattice patch with the ramp data (`maxValence = 4`, one
channel), after the loop over the corners: the entry `(1*4 + 1)*1 + 0 = 5`,
where the value of corner 1, edge 1 is claimed to be stored and which the
construction of `F+` of corner 1 reads (`start = 1`), still holds the content
the array had at allocation; the value of corner 1, edge 1 is at index 9; and
the entry 24, beyond the `4 * 4 * 1 = 16` entries of `r`, has been written
(it is `1` whatever it held before). -/
theorem r_index_mismatch (M : LibM ℚ) (sc : GregoryScratch ℚ) :
    (1 * 4 * desc1.length + (quadStart (latticeQuadOffsets 1) * desc1.length + 0)
        = (1 * 4 + 1) * desc1.length + 0 ∧
      (gregoryCorners M sc latticeValenceBuffer 4 gregoryIndices desc1 rampQ).r
        ((1 * 4 + 1) * desc1.length + 0) = sc.r 5) ∧
    (gregoryCorners M sc latticeValenceBuffer 4 gregoryIndices desc1 rampQ).r 9 = 19 / 6 ∧
    (4 * 4 * desc1.length ≤ 24 ∧
      (gregoryCorners M sc latticeValenceBuffer 4 gregoryIndices desc1 rampQ).r 24 = 1) ∧
    (gregoryCorners M sc latticeValenceBuffer 4 gregoryIndices desc1 rampQ).rp = 32 := by
  have h := sample_r M sc
  exact ⟨⟨by decide, h.2.1⟩, h.2.2.1, ⟨by decide, h.2.2.2.1⟩, h.2.2.2.2⟩

/-- C12: `prev_p` is the low byte of the entry, that is its `start` field, for
every entry; for the entry `513 = 1 + 256 * 2` of corner 1 of the lattice
patch it is `1` where the `prev` field is `2`.  With the bump data, zeroed
stack arrays and cosines and sines exact on quarter turns, the point `Em_ip`
used for `F+` of corner 0 is `1/9`, whereas the point `Em` that corner 1
computes for itself is `2/9`. -/
theorem prev_p_is_start_field :
    (∀ w : Nat, quadPrevP w = w % 256 ∧ quadPrevP w = quadStart w) ∧
    (quadPrevP (latticeQuadOffsets 1) = 1 ∧ latticeQuadOffsets 1 / 256 % 256 = 2 ∧
      quadPrev (latticeQuadOffsets 1) = 2) ∧
    cornerE quarterTurnLibM
        (gregoryCorners quarterTurnLibM zeroScratch latticeValenceBuffer 4 gregoryIndices
          desc1 bumpQ)
        desc1.length 1 (quadPrevP (latticeQuadOffsets 1)) 0 = 1 / 9 ∧
    (gregoryTess quarterTurnLibM
        (gregoryCorners quarterTurnLibM zeroScratch latticeValenceBuffer 4 gregoryIndices
          desc1 bumpQ)
        latticeQuadOffsets 4 desc1.length).Em (1 * desc1.length + 0) = 2 / 9 := by
  refine ⟨fun w => ⟨(quad_masks w).2.2, ?_⟩, by decide, ?_, ?_⟩
  · rw [(quad_masks w).2.2, (quad_masks w).1]
  · decide!
  · decide!

end GregoryScratchArrays

section BaselineToolTheorems

/-- A single argument that is neither `-shape` nor `-scheme` leaves the
globals unchanged and makes `parseArgs` call `usage` once. -/
theorem parseArgs_single (numShapes : Nat) (atoi : String → Int) (app f : String)
    (h1 : f ≠ "-shape") (h2 : f ≠ "-scheme") (g : Globals) :
    parseArgs numShapes atoi [app, f] g = ParseOutcome.returned g 1 := by
  simp [parseArgs, parseArgsLoop, h1, h2]

/-- C19: for the command line `baseline cube.obj`, `parseArgs` returns with
the globals unchanged, so `g_objfile` is still empty, after one call of
`usage`; `main` then takes neither the file branch nor the shape branch. -/
theorem parseArgs_drops_objfile (numShapes : Nat) (atoi : String → Int) :
    parseArgs numShapes atoi ["baseline", "cube.obj"] initialGlobals
      = ParseOutcome.returned initialGlobals 1 ∧
    initialGlobals.g_objfile = "" ∧
    mainBranch numShapes atoi ["baseline", "cube.obj"] = MainBranch.nothing := by
  have h := parseArgs_single numShapes atoi "baseline" "cube.obj" (by decide) (by decide)
    initialGlobals
  refine ⟨h, rfl, ?_⟩
  rw [mainBranch, h]
  rfl

end BaselineToolTheorems

section GregoryWeights

variable {K : Type} [Field K]

/-- The body of `tessStep` written with the named weights `s1`, `s2`, `s3`. -/
theorem tessStep_unfold_weights (M : LibM K) (c : CornerState K) (quadOffsetBuffer : Nat → Nat)
    (maxValence length : Nat) (st : TessState K) (vid : Fin 4) :
    tessStep M c quadOffsetBuffer maxValence length st vid
      = (List.range length).foldl (fun (st : TessState K) k =>
          { st with
            Fp := setAt st.Fp (vid.val * length + k)
              ((csf M (c.valences ⟨(vid.val + 1) % 4, Nat.mod_lt _ (by decide)⟩ - 3) 2
                    * c.opos (vid.val * length + k)
                  + s1 M (c.valences vid)
                      (c.valences ⟨(vid.val + 1) % 4, Nat.mod_lt _ (by decide)⟩)
                    * st.Ep (vid.val * length + k)
                  + s2 M (c.valences vid)
                    * cornerE M c length ⟨(vid.val + 1) % 4, Nat.mod_lt _ (by decide)⟩
                        (quadPrevP (quadOffsetBuffer ((vid.val + 1) % 4))) k
                  + c.r (vid.val * maxValence * length
                      + (quadStart (quadOffsetBuffer vid.val) * length + k))) / 3)
            Fm := setAt st.Fm (vid.val * length + k)
              ((csf M (c.valences ⟨(vid.val + 3) % 4, Nat.mod_lt _ (by decide)⟩ - 3) 2
                    * c.opos (vid.val * length + k)
                  + s3 M (c.valences vid)
                      (c.valences ⟨(vid.val + 3) % 4, Nat.mod_lt _ (by decide)⟩)
                    * st.Em (vid.val * length + k)
                  + s2 M (c.valences vid)
                    * cornerE M c length ⟨(vid.val + 3) % 4, Nat.mod_lt _ (by decide)⟩
                        (quadStart (quadOffsetBuffer ((vid.val + 3) % 4))) k
                  - c.r (vid.val * maxValence * length
                      + (quadPrev (quadOffsetBuffer vid.val) * length + k))) / 3) })
          ((List.range length).foldl (fun (st : TessState K) k =>
            { st with
              Ep := setAt st.Ep (vid.val * length + k)
                (cornerE M c length vid (quadStart (quadOffsetBuffer vid.val)) k)
              Em := setAt st.Em (vid.val * length + k)
                (cornerE M c length vid (quadPrev (quadOffsetBuffer vid.val)) k) }) st) :=
  rfl

/-- For a valence `n >= 3`, `csf(n-3, 2)` is `cosf(2*pi/n)`. -/
theorem csf_two [CharZero K] (M : LibM K) (n : Nat) (hn : 3 ≤ n) :
    csf M (n - 3) 2 = M.cosf (2 * M.pi / (n : K)) := by
  have hcast : ((n - 3 : Nat) : K) + 3 = (n : K) := by
    have h : ((n - 3 + 3 : Nat) : K) = (n : K) := by rw [Nat.sub_add_cancel hn]
    rw [← h]; push_cast; ring
  have h2 : (((2 - 0 : Nat) : K) / 2) = 1 := by norm_num
  simp only [csf, Nat.mod_self, if_true, hcast, h2, mul_one]

omit [Field K] in
/-- The loop of lines 304-308 in closed form. -/
theorem tess_loop_E (n base : Nat) (gP gM : Nat → K) (st : TessState K) :
    (List.range n).foldl (fun (st : TessState K) k =>
        { st with
          Ep := setAt st.Ep (base + k) (gP k)
          Em := setAt st.Em (base + k) (gM k) }) st
      = { st with Ep := setLoop n base gP st.Ep, Em := setLoop n base gM st.Em } := by
  induction n with
  | zero => simp [setLoop]
  | succ n ih =>
    rw [List.range_succ, List.foldl_append, ih]
    simp [setLoop, List.range_succ, List.foldl_append]

omit [Field K] in
/-- The loop of lines 332-335 in closed form: it leaves `Ep` and `Em` as they
are and stores values that depend on them. -/
theorem tess_loop_F (n base : Nat) (GP GM : (Nat → K) → Nat → K) (st : TessState K) :
    (List.range n).foldl (fun (st : TessState K) k =>
        { st with
          Fp := setAt st.Fp (base + k) (GP st.Ep k)
          Fm := setAt st.Fm (base + k) (GM st.Em k) }) st
      = { st with Fp := setLoop n base (GP st.Ep) st.Fp, Fm := setLoop n base (GM st.Em) st.Fm } := by
  induction n with
  | zero => simp [setLoop]
  | succ n ih =>
    rw [List.range_succ, List.foldl_append, ih]
    simp [setLoop, List.range_succ, List.foldl_append]

/-- The values `Fp[ofs]` and `Fm[ofs]` that one iteration of the "tess
control" loop stores for its corner. -/
theorem tessStep_F_values (M : LibM K) (c : CornerState K) (quadOffsetBuffer : Nat → Nat)
    (maxValence length : Nat) (st : TessState K) (vid : Fin 4) (k : Nat) (hk : k < length) :
    (tessStep M c quadOffsetBuffer maxValence length st vid).Fp (vid.val * length + k)
      = (csf M (c.valences ⟨(vid.val + 1) % 4, Nat.mod_lt _ (by decide)⟩ - 3) 2
            * c.opos (vid.val * length + k)
          + s1 M (c.valences vid) (c.valences ⟨(vid.val + 1) % 4, Nat.mod_lt _ (by decide)⟩)
            * cornerE M c length vid (quadStart (quadOffsetBuffer vid.val)) k
          + s2 M (c.valences vid)
            * cornerE M c length ⟨(vid.val + 1) % 4, Nat.mod_lt _ (by decide)⟩
                (quadPrevP (quadOffsetBuffer ((vid.val + 1) % 4))) k
          + c.r (vid.val * maxValence * length
              + (quadStart (quadOffsetBuffer vid.val) * length + k))) / 3 ∧
    (tessStep M c quadOffsetBuffer maxValence length st vid).Fm (vid.val * length + k)
      = (csf M (c.valences ⟨(vid.val + 3) % 4, Nat.mod_lt _ (by decide)⟩ - 3) 2
            * c.opos (vid.val * length + k)
          + s3 M (c.valences vid) (c.valences ⟨(vid.val + 3) % 4, Nat.mod_lt _ (by decide)⟩)
            * cornerE M c length vid (quadPrev (quadOffsetBuffer vid.val)) k
          + s2 M (c.valences vid)
            * cornerE M c length ⟨(vid.val + 3) % 4, Nat.mod_lt _ (by decide)⟩
                (quadStart (quadOffsetBuffer ((vid.val + 3) % 4))) k
          - c.r (vid.val * maxValence * length
              + (quadPrev (quadOffsetBuffer vid.val) * length + k))) / 3 := by
  have hwin : vid.val * length ≤ vid.val * length + k ∧
      vid.val * length + k < vid.val * length + length := by omega
  have hE := tess_loop_E length (vid.val * length)
    (cornerE M c length vid (quadStart (quadOffsetBuffer vid.val)))
    (cornerE M c length vid (quadPrev (quadOffsetBuffer vid.val))) st
  have hF := tess_loop_F length (vid.val * length)
    (fun (e : Nat → K) k =>
      (csf M (c.valences ⟨(vid.val + 1) % 4, Nat.mod_lt _ (by decide)⟩ - 3) 2
          * c.opos (vid.val * length + k)
        + s1 M (c.valences vid) (c.valences ⟨(vid.val + 1) % 4, Nat.mod_lt _ (by decide)⟩)
          * e (vid.val * length + k)
        + s2 M (c.valences vid)
          * cornerE M c length ⟨(vid.val + 1) % 4, Nat.mod_lt _ (by decide)⟩
              (quadPrevP (quadOffsetBuffer ((vid.val + 1) % 4))) k
        + c.r (vid.val * maxValence * length
            + (quadStart (quadOffsetBuffer vid.val) * length + k))) / 3)
    (fun (e : Nat → K) k =>
      (csf M (c.valences ⟨(vid.val + 3) % 4, Nat.mod_lt _ (by decide)⟩ - 3) 2
          * c.opos (vid.val * length + k)
        + s3 M (c.valences vid) (c.valences ⟨(vid.val + 3) % 4, Nat.mod_lt _ (by decide)⟩)
          * e (vid.val * length + k)
        + s2 M (c.valences vid)
          * cornerE M c length ⟨(vid.val + 3) % 4, Nat.mod_lt _ (by decide)⟩
              (quadStart (quadOffsetBuffer ((vid.val + 3) % 4))) k
        - c.r (vid.val * maxValence * length
            + (quadPrev (quadOffsetBuffer vid.val) * length + k))) / 3)
    { st with
      Ep := setLoop length (vid.val * length)
        (cornerE M c length vid (quadStart (quadOffsetBuffer vid.val))) st.Ep
      Em := setLoop length (vid.val * length)
        (cornerE M c length vid (quadPrev (quadOffsetBuffer vid.val))) st.Em }
  simp only at hF
  rw [tessStep_unfold_weights, hE, hF]
  simp only [setLoop_apply, if_pos hwin, Nat.add_sub_cancel_left]
  exact ⟨trivial, trivial⟩

/-- C24: for all valences `n, np, nm >= 3` of the current, next and previous
corner, `csf(n-3,2)` is `cosf(2*pi/n)` and the weights of `F+` and of `F-` sum
to 3: `csf(np-3,2) + s1 + s2 = 3` and `csf(nm-3,2) + s3 + s2 = 3`; hence the
values `Fp[ofs]` and `Fm[ofs]` stored for a corner with these valences are
combinations of `P`, `E+` or `E-` and the neighbor's `E` point with weights
that sum to 1, plus or minus `r/3`.  This holds for every cosine function
over a field of characteristic zero, in particular over the reals. -/
theorem gregory_F_weights_sum [CharZero K] (M : LibM K) (n np nm : Nat)
    (hn : 3 ≤ n) (hnp : 3 ≤ np) (hnm : 3 ≤ nm) :
    csf M (n - 3) 2 = M.cosf (2 * M.pi / (n : K)) ∧
    csf M (np - 3) 2 + s1 M n np + s2 M n = 3 ∧
    csf M (nm - 3) 2 + s3 M n nm + s2 M n = 3 ∧
    csf M (np - 3) 2 / 3 + s1 M n np / 3 + s2 M n / 3 = 1 ∧
    csf M (nm - 3) 2 / 3 + s3 M n nm / 3 + s2 M n / 3 = 1 ∧
    ∀ (c : CornerState K) (quadOffsetBuffer : Nat → Nat) (maxValence length : Nat)
      (st : TessState K) (vid : Fin 4) (k : Nat), k < length →
      c.valences vid = n →
      c.valences ⟨(vid.val + 1) % 4, Nat.mod_lt _ (by decide)⟩ = np →
      c.valences ⟨(vid.val + 3) % 4, Nat.mod_lt _ (by decide)⟩ = nm →
      (tessStep M c quadOffsetBuffer maxValence length st vid).Fp (vid.val * length + k)
        = csf M (np - 3) 2 / 3 * c.opos (vid.val * length + k)
          + s1 M n np / 3 * cornerE M c length vid (quadStart (quadOffsetBuffer vid.val)) k
          + s2 M n / 3
            * cornerE M c length ⟨(vid.val + 1) % 4, Nat.mod_lt _ (by decide)⟩
                (quadPrevP (quadOffsetBuffer ((vid.val + 1) % 4))) k
          + c.r (vid.val * maxValence * length
              + (quadStart (quadOffsetBuffer vid.val) * length + k)) / 3 ∧
      (tessStep M c quadOffsetBuffer maxValence length st vid).Fm (vid.val * length + k)
        = csf M (nm - 3) 2 / 3 * c.opos (vid.val * length + k)
          + s3 M n nm / 3 * cornerE M c length vid (quadPrev (quadOffsetBuffer vid.val)) k
          + s2 M n / 3
            * cornerE M c length ⟨(vid.val + 3) % 4, Nat.mod_lt _ (by decide)⟩
                (quadStart (quadOffsetBuffer ((vid.val + 3) % 4))) k
          - c.r (vid.val * maxValence * length
              + (quadPrev (quadOffsetBuffer vid.val) * length + k)) / 3 := by
  have _ := hnp
  have h1 : csf M (np - 3) 2 + s1 M n np + s2 M n = 3 := by
    simp only [s1, s2]; ring
  have h3 : csf M (nm - 3) 2 + s3 M n nm + s2 M n = 3 := by
    simp only [s3, s2, csf_two M n hn, csf_two M nm hnm]; ring
  refine ⟨csf_two M n hn, h1, h3, ?_, ?_, ?_⟩
  · rw [← add_div, ← add_div, h1]; norm_num
  · rw [← add_div, ← add_div, h3]; norm_num
  · intro c quadOffsetBuffer maxValence length st vid k hk hvn hvp hvm
    obtain ⟨hp, hm⟩ := tessStep_F_values M c quadOffsetBuffer maxValence length st vid k hk
    rw [hp, hm, hvn, hvp, hvm]
    constructor <;> ring

/-- Witness of C24: the valences 5, 3 and 4 with the cosine, the sine and
the constant pi of the reals. -/
theorem gregory_F_weights_sum_witness :
    3 ≤ 5 ∧ 3 ≤ 3 ∧ 3 ≤ 4 ∧
    csf ({ cosf := Real.cos, sinf := Real.sin, pi := Real.pi } : LibM ℝ) (5 - 3) 2
      = Real.cos (2 * Real.pi / ((5 : Nat) : ℝ)) ∧
    csf ({ cosf := Real.cos, sinf := Real.sin, pi := Real.pi } : LibM ℝ) (3 - 3) 2
        + s1 ({ cosf := Real.cos, sinf := Real.sin, pi := Real.pi } : LibM ℝ) 5 3
        + s2 ({ cosf := Real.cos, sinf := Real.sin, pi := Real.pi } : LibM ℝ) 5 = 3 ∧
    csf ({ cosf := Real.cos, sinf := Real.sin, pi := Real.pi } : LibM ℝ) (4 - 3) 2
        + s3 ({ cosf := Real.cos, sinf := Real.sin, pi := Real.pi } : LibM ℝ) 5 4
        + s2 ({ cosf := Real.cos, sinf := Real.sin, pi := Real.pi } : LibM ℝ) 5 = 3 :=
  ⟨by decide, by decide, by decide,
    (gregory_F_weights_sum ({ cosf := Real.cos, sinf := Real.sin, pi := Real.pi } : LibM ℝ)
      5 3 4 (by decide) (by decide) (by decide)).1,
    (gregory_F_weights_sum ({ cosf := Real.cos, sinf := Real.sin, pi := Real.pi } : LibM ℝ)
      5 3 4 (by decide) (by decide) (by decide)).2.1,
    (gregory_F_weights_sum ({ cosf := Real.cos, sinf := Real.sin, pi := Real.pi } : LibM ℝ)
      5 3 4 (by decide) (by decide) (by decide)).2.2.1⟩

end GregoryWeights

section ClampedSlots

variable {K : Type} [LinearOrderedField K] [DecidableEq K]

/-- C21: for `(u,v)` in the unit square and every channel `k`, whenever the
defining sum of one of the four denominators is zero, that denominator is
clamped to 1, the numerator of its interior slot vanishes and the slot of the
grid `q` is exactly 0 (`p[3]` and `p[4]` are `F+` and `F-` of corner 0). -/
theorem clamped_numerators_vanish (u v : K) (hu0 : 0 ≤ u) (hu1 : u ≤ 1) (hv0 : 0 ≤ v)
    (hv1 : v ≤ 1) (c : CornerState K) (t : TessState K) (length k : Nat) (hk : k < length) :
    (u + v = 0 →
      d11 u v = 1 ∧
      u * gregoryPoint c t length 3 k + v * gregoryPoint c t length 4 k = 0 ∧
      gregoryGrid u v c t length (5 * length + k) = 0) ∧
    ((1 - u) + v = 0 →
      d12 u v = 1 ∧
      (1 - u) * gregoryPoint c t length 9 k + v * gregoryPoint c t length 8 k = 0 ∧
      gregoryGrid u v c t length (6 * length + k) = 0) ∧
    (u + (1 - v) = 0 →
      d21 u v = 1 ∧
      u * gregoryPoint c t length 19 k + (1 - v) * gregoryPoint c t length 18 k = 0 ∧
      gregoryGrid u v c t length (9 * length + k) = 0) ∧
    ((1 - u) + (1 - v) = 0 →
      d22 u v = 1 ∧
      (1 - u) * gregoryPoint c t length 13 k + (1 - v) * gregoryPoint c t length 14 k = 0 ∧
      gregoryGrid u v c t length (10 * length + k) = 0) := by
  have hU : 0 ≤ 1 - u := sub_nonneg.mpr hu1
  have hV : 0 ≤ 1 - v := sub_nonneg.mpr hv1
  obtain ⟨g5, g6, g9, g10⟩ := gregoryGrid_interior u v c t length k hk
  have key : ∀ a b x y : K, 0 ≤ a → 0 ≤ b → a + b = 0 → a * x + b * y = 0 := by
    intro a b x y ha hb hab
    have ha0 : a = 0 := le_antisymm (by linarith) ha
    have hb0 : b = 0 := le_antisymm (by linarith) hb
    rw [ha0, hb0]; ring
  refine ⟨fun h => ?_, fun h => ?_, fun h => ?_, fun h => ?_⟩
  · have hd : d11 u v = 1 := by simp [d11, h]
    have hn := key u v (gregoryPoint c t length 3 k) (gregoryPoint c t length 4 k) hu0 hv0 h
    exact ⟨hd, hn, by rw [g5, hn, zero_div]⟩
  · have hd : d12 u v = 1 := by simp [d12, h]
    have hn := key (1 - u) v (gregoryPoint c t length 9 k) (gregoryPoint c t length 8 k) hU hv0 h
    exact ⟨hd, hn, by rw [g6, hn, zero_div]⟩
  · have hd : d21 u v = 1 := by simp [d21, h]
    have hn := key u (1 - v) (gregoryPoint c t length 19 k) (gregoryPoint c t length 18 k)
      hu0 hV h
    exact ⟨hd, hn, by rw [g9, hn, zero_div]⟩
  · have hd : d22 u v = 1 := by simp [d22, h]
    have hn := key (1 - u) (1 - v) (gregoryPoint c t length 13 k)
      (gregoryPoint c t length 14 k) hU hV h
    exact ⟨hd, hn, by rw [g10, hn, zero_div]⟩

end ClampedSlots

/-- Witness of C21: the corner `(u,v) = (0,0)` of the lattice patch with the
bump data, one channel. -/
theorem clamped_numerators_vanish_witness :
    (0 : ℚ) ≤ 0 ∧ (0 : ℚ) ≤ 1 ∧ (0 : ℚ) ≤ 0 ∧ (0 : ℚ) ≤ 1 ∧ 0 < 1 ∧
    ((0 + 0 = (0 : ℚ) →
      d11 (0 : ℚ) 0 = 1 ∧
      0 * gregoryPoint
          (gregoryCorners quarterTurnLibM zeroScratch latticeValenceBuffer 4 gregoryIndices
            desc1 bumpQ)
          (gregoryTess quarterTurnLibM
            (gregoryCorners quarterTurnLibM zeroScratch latticeValenceBuffer 4 gregoryIndices
              desc1 bumpQ) latticeQuadOffsets 4 1) 1 3 0
        + 0 * gregoryPoint
          (gregoryCorners quarterTurnLibM zeroScratch latticeValenceBuffer 4 gregoryIndices
            desc1 bumpQ)
          (gregoryTess quarterTurnLibM
            (gregoryCorners quarterTurnLibM zeroScratch latticeValenceBuffer 4 gregoryIndices
              desc1 bumpQ) latticeQuadOffsets 4 1) 1 4 0 = 0 ∧
      gregoryGrid (0 : ℚ) 0
          (gregoryCorners quarterTurnLibM zeroScratch latticeValenceBuffer 4 gregoryIndices
            desc1 bumpQ)
          (gregoryTess quarterTurnLibM
            (gregoryCorners quarterTurnLibM zeroScratch latticeValenceBuffer 4 gregoryIndices
              desc1 bumpQ) latticeQuadOffsets 4 1) 1 (5 * 1 + 0) = 0)) :=
  ⟨le_refl _, zero_le_one, le_refl _, zero_le_one, by decide,
    (clamped_numerators_vanish (0 : ℚ) 0 (le_refl _) zero_le_one (le_refl _) zero_le_one
      (gregoryCorners quarterTurnLibM zeroScratch latticeValenceBuffer 4 gregoryIndices
        desc1 bumpQ)
      (gregoryTess quarterTurnLibM
        (gregoryCorners quarterTurnLibM zeroScratch latticeValenceBuffer 4 gregoryIndices
          desc1 bumpQ) latticeQuadOffsets 4 1) 1 0 (by decide)).1⟩

section BasisShape

/-- C22: for every `u` in `[0,1]`, the four blend weights of
`evalCubicBSpline u` and the four blend weights of `univar4x4 u` are
non-negative. -/
theorem basis_weights_nonneg {K : Type} [LinearOrderedField K] (u : K) (h0 : 0 ≤ u)
    (h1 : u ≤ 1) (i : Fin 4) :
    0 ≤ (evalCubicBSpline u).B i ∧ 0 ≤ (univar4x4 u).B i := by
  have hs : 0 ≤ 1 - u := sub_nonneg.mpr h1
  fin_cases i
  · constructor
    · simp [evalCubicBSpline]; positivity
    · simp [univar4x4]; positivity
  · constructor
    · simp [evalCubicBSpline]; positivity
    · simp [univar4x4]; positivity
  · constructor
    · simp [evalCubicBSpline]; positivity
    · simp [univar4x4]; positivity
  · constructor
    · simp [evalCubicBSpline]; positivity
    · simp [univar4x4]; positivity

/-- Witness of C22: the weights of index 1 at `u = 1/2` over the rationals. -/
theorem basis_weights_nonneg_witness :
    (0 : ℚ) ≤ 1 / 2 ∧ (1 / 2 : ℚ) ≤ 1 ∧
    0 ≤ (evalCubicBSpline (1 / 2 : ℚ)).B 1 ∧ 0 ≤ (univar4x4 (1 / 2 : ℚ)).B 1 :=
  ⟨by norm_num, by norm_num,
    basis_weights_nonneg (1 / 2 : ℚ) (by norm_num) (by norm_num) 1⟩

open Polynomial in
/-- C23: for every `u`, the blend weights of `univar4x4` are `(1-u)^3`,
`3u(1-u)^2`, `3u^2(1-u)` and `u^3`; over the rationals, weight `i` is the
evaluation of the Bernstein polynomial of degree 3 and index `i`, which has
degree 3. -/
theorem univar4x4_bernstein {K : Type} [Field K] (u : K) :
    ((univar4x4 u).B 0 = (1 - u) ^ 3 ∧
      (univar4x4 u).B 1 = 3 * u * (1 - u) ^ 2 ∧
      (univar4x4 u).B 2 = 3 * u ^ 2 * (1 - u) ∧
      (univar4x4 u).B 3 = u ^ 3) ∧
    ∀ i : Fin 4,
      (bernsteinPolynomial ℚ 3 i.val).natDegree = 3 ∧
      ∀ x : ℚ, (univar4x4 x).B i = (bernsteinPolynomial ℚ 3 i.val).eval x := by
  refine ⟨?_, ?_⟩
  · refine ⟨?_, ?_, ?_, ?_⟩ <;> simp [univar4x4] <;> ring
  intro i
  fin_cases i
  · constructor
    · have h : bernsteinPolynomial ℚ 3 0 = -X ^ 3 + 3 * X ^ 2 - 3 * X + 1 := by
        simp [bernsteinPolynomial]; ring
      show (bernsteinPolynomial ℚ 3 0).natDegree = 3
      rw [h]
      compute_degree!
    · intro u
      simp [bernsteinPolynomial, univar4x4]
      ring
  · constructor
    · have h : bernsteinPolynomial ℚ 3 1 = 3 * X ^ 3 - 6 * X ^ 2 + 3 * X := by
        simp [bernsteinPolynomial, Nat.choose]; ring
      show (bernsteinPolynomial ℚ 3 1).natDegree = 3
      rw [h]
      compute_degree!
    · intro u
      simp [bernsteinPolynomial, univar4x4, Nat.choose]
      ring
  · constructor
    · have h : bernsteinPolynomial ℚ 3 2 = -3 * X ^ 3 + 3 * X ^ 2 := by
        simp [bernsteinPolynomial, Nat.choose]; ring
      show (bernsteinPolynomial ℚ 3 2).natDegree = 3
      rw [h]
      compute_degree!
    · intro u
      simp [bernsteinPolynomial, univar4x4, Nat.choose]
      ring
  · constructor
    · have h : bernsteinPolynomial ℚ 3 3 = X ^ 3 := by
        simp [bernsteinPolynomial]
      show (bernsteinPolynomial ℚ 3 3).natDegree = 3
      rw [h]
      compute_degree!
    · intro u
      simp [bernsteinPolynomial, univar4x4]
      ring

end BasisShape

end OpenSubdiv
